import Mathlib

/-!
Verification development for the sql-lineage-tracker repository.

This file gives a shallow embedding of the core of the repository
(`sqllineage/core/models.py`, `sqllineage/core/extractor.py`,
`sqllineage/core/resolver.py`) and proves or refutes the frozen claims
about it.

Modelling conventions:
* Python dictionaries (which are insertion ordered) are modelled as
  insertion-ordered association lists `List (String × α)` with
  insert-if-absent operations, exactly mirroring the guarded inserts in
  the source.
* Python strings are Lean `String`s; `str.lower()` is modelled by `strLower` (see below).
* Python truthiness checks on optional strings (`if self.database:`)
  are modelled explicitly: both `None` and `""` are falsy.
* The sqlglot AST (an outside dependency, the spec's "AST Adapter") is
  modelled as an inductive tree `Exp` exposing exactly the shape the
  extractor inspects: node kinds, `this`/children slots, table and
  column accessors.  `Expression.find_all` / `find` walk the tree in
  breadth-first order in sqlglot, and are modelled by a breadth-first
  traversal here.  The traversal uses the tree size as fuel, which is
  exactly the number of nodes visited, so the fuel never runs out.
* The `while queue:` loop of Kahn's algorithm in `get_execution_order`
  is modelled with fuel `ids.length + 1`; each iteration removes one
  element from the queue and every node is enqueued at most once, so
  the Python loop performs at most `ids.length` iterations and the fuel
  is sufficient (this is also what the nodup invariants below prove).
-/

namespace SqlLineage

/-!
## Kernel-computable string primitives

`String.toLower`, `String.toUpper` and `String.splitOn` are compiled by
well-founded recursion over byte positions in core Lean and therefore do
not reduce inside the kernel.  The embedding uses the following
extensionally equivalent characterwise definitions instead, so that
theorems about concrete inputs can be checked by evaluation.
-/

/-- Python `str.lower()` (`.lower()` in the source), characterwise. -/
def strLower (s : String) : String :=
  ⟨s.data.map Char.toLower⟩

/-- Python `str.upper()` (`.upper()` in the source), characterwise. -/
def strUpper (s : String) : String :=
  ⟨s.data.map Char.toUpper⟩

/-- Helper for `splitDots`: accumulates the current (reversed) chunk. -/
def splitDotsAux : List Char → List Char → List String
  | [], acc => [⟨acc.reverse⟩]
  | c :: cs, acc =>
      if c = '.' then (⟨acc.reverse⟩ : String) :: splitDotsAux cs []
      else splitDotsAux cs (c :: acc)

/-- Python `s.split(".")` and the separator-"." case of `s.rsplit`. -/
def splitDots (s : String) : List String :=
  splitDotsAux s.data []

/-- `EdgeType` from models.py: type of lineage relationship. -/
inductive EdgeType where
  | table_to_table
  | column_to_column
deriving DecidableEq, Repr

/-- `Table` from models.py: a SQL table or view. -/
structure Table where
  name : String
  schema_name : Option String := none
  database : Option String := none
  source_file : Option String := none
  is_cte : Bool := false
deriving DecidableEq, Repr

/-- Python truthiness for an optional string: `None` and `""` are falsy. -/
def optPart : Option String → List String
  | some s => if s = "" then [] else [s]
  | none => []

/-- `Table.qualified_name`: full qualified name `database.schema.table`,
omitting absent (or empty, per Python truthiness) parts. -/
def Table.qualified_name (t : Table) : String :=
  String.intercalate "." (optPart t.database ++ optPart t.schema_name ++ [t.name])

/-- The node id `add_table` computes for a table: the lowercased qualified name. -/
def Table.node_id (t : Table) : String :=
  (strLower t.qualified_name)

/-- `Column` from models.py. -/
structure Column where
  name : String
  table : Option Table := none
deriving DecidableEq, Repr

/-- `Column.qualified_name`. -/
def Column.qualified_name (c : Column) : String :=
  match c.table with
  | some t => t.qualified_name ++ "." ++ c.name
  | none => c.name

/-- `LineageEdge` from models.py. -/
structure LineageEdge where
  source : String
  target : String
  edge_type : EdgeType := EdgeType.table_to_table
  expression : Option String := none
  source_file : Option String := none
deriving DecidableEq, Repr

/-- The dedup key of an edge, used by `LineageEdge.__hash__`/`__eq__`:
(lowercased source, lowercased target, kind). -/
def LineageEdge.key (e : LineageEdge) : String × String × EdgeType :=
  ((strLower e.source), (strLower e.target), e.edge_type)

/-- `LineageEdge.__eq__` as a boolean test. -/
def edgeKeyEq (a b : LineageEdge) : Bool :=
  decide (a.key = b.key)

/-- `TableNode` from models.py: a table node for the graph visualization. -/
structure TableNode where
  id : String
  name : String
  schema_name : Option String := none
  database : Option String := none
  source_file : Option String := none
  is_cte : Bool := false
  node_type : String := "table"
deriving DecidableEq, Repr

/-- `ColumnNode` from models.py. -/
structure ColumnNode where
  id : String
  name : String
  table_id : String
deriving DecidableEq, Repr

/-- Key membership in an insertion-ordered association list
(Python `key in dict`). -/
def keyMem {α : Type} (k : String) (l : List (String × α)) : Bool :=
  l.any fun p => decide (p.1 = k)

/-- Lookup in an insertion-ordered association list (Python `dict[key]`). -/
def alGet {α : Type} (k : String) : List (String × α) → Option α
  | [] => none
  | p :: ps => if p.1 = k then some p.2 else alGet k ps

/-- `LineageGraph` from models.py. `tables` and `columns` are the two
insertion-ordered dictionaries; `edges` is the edge list. -/
structure LineageGraph where
  tables : List (String × TableNode) := []
  columns : List (String × ColumnNode) := []
  edges : List LineageEdge := []
deriving DecidableEq, Repr

/-- `LineageGraph.add_table`: add a table node keyed by the lowercased
qualified name; a no-op when the key is present. Returns the node id. -/
def LineageGraph.add_table (g : LineageGraph) (t : Table) (node_type : String) :
    LineageGraph × String :=
  let node_id := (strLower t.qualified_name)
  if keyMem node_id g.tables then (g, node_id)
  else
    ({ g with
        tables := g.tables ++ [(node_id,
          { id := node_id, name := t.name, schema_name := t.schema_name,
            database := t.database, source_file := t.source_file,
            is_cte := t.is_cte, node_type := node_type })] },
      node_id)

/-- `LineageGraph.add_column`. -/
def LineageGraph.add_column (g : LineageGraph) (c : Column) :
    LineageGraph × String :=
  let node_id := (strLower c.qualified_name)
  let table_id := match c.table with
    | some t => (strLower t.qualified_name)
    | none => ""
  if keyMem node_id g.columns then (g, node_id)
  else
    ({ g with
        columns := g.columns ++ [(node_id,
          { id := node_id, name := c.name, table_id := table_id })] },
      node_id)

/-- `LineageGraph.add_edge`: append the edge unless an edge with the same
dedup key is already stored. -/
def LineageGraph.add_edge (g : LineageGraph) (e : LineageEdge) : LineageGraph :=
  if g.edges.any (fun e2 => edgeKeyEq e2 e) then g
  else { g with edges := g.edges ++ [e] }

/-- `LineageGraph.merge`: merge another graph into this one, keeping the
existing entry on key collisions and deduplicating edges via `add_edge`. -/
def LineageGraph.merge (g other : LineageGraph) : LineageGraph :=
  let t := other.tables.foldl
    (fun acc kv => if keyMem kv.1 acc then acc else acc ++ [kv]) g.tables
  let c := other.columns.foldl
    (fun acc kv => if keyMem kv.1 acc then acc else acc ++ [kv]) g.columns
  other.edges.foldl (fun acc e => acc.add_edge e)
    { g with tables := t, columns := c }

/-- `LineageGraph.get_upstream`. -/
def LineageGraph.get_upstream (g : LineageGraph) (node_id : String) : List String :=
  (g.edges.filter fun e => decide ((strLower e.target) = (strLower node_id))).map (·.source)

/-- `LineageGraph.get_downstream`. -/
def LineageGraph.get_downstream (g : LineageGraph) (node_id : String) : List String :=
  (g.edges.filter fun e => decide ((strLower e.source) = (strLower node_id))).map (·.target)

/-- One serialized node of `to_d3_json`. Table-level entries fill the
schema/database/source/is_cte fields; column-level entries fill `table_id`. -/
structure D3Node where
  id : String
  name : String
  type : String
  schema_name : Option String := none
  database : Option String := none
  source_file : Option String := none
  is_cte : Option Bool := none
  table_id : Option String := none
  level : String
deriving DecidableEq, Repr

/-- One serialized link of `to_d3_json`. -/
structure D3Link where
  source : String
  target : String
  type : String
  expression : Option String := none
  source_file : Option String := none
  source_table : Option String := none
  source_column : Option String := none
  target_table : Option String := none
  target_column : Option String := none
deriving DecidableEq, Repr

/-- Python `s.rsplit(".", 1)`: split off the part after the last dot. -/
def rsplit1 (s : String) : List String :=
  match (splitDots s).reverse with
  | [] => [s]
  | [x] => [x]
  | x :: rest => [String.intercalate "." rest.reverse, x]

/-- The string value of `EdgeType` (`edge_type.value` in Python). -/
def EdgeType.value : EdgeType → String
  | .table_to_table => "table_to_table"
  | .column_to_column => "column_to_column"

/-- The serialized form of one edge in `to_d3_json`: the link carries the
edge's endpoint strings as stored; for column-to-column edges the
endpoints are additionally split (via `rsplit(".", 1)`) into table and
column parts. -/
def d3LinkOf (e : LineageEdge) : D3Link :=
  let base : D3Link :=
    { source := e.source, target := e.target, type := e.edge_type.value,
      expression := e.expression, source_file := e.source_file }
  if e.edge_type = EdgeType.column_to_column then
    let base2 := match rsplit1 e.source with
      | [tp, cp] => { base with source_table := some tp, source_column := some cp }
      | _ => base
    match rsplit1 e.target with
      | [tp, cp] => { base2 with target_table := some tp, target_column := some cp }
      | _ => base2
  else base

/-- `LineageGraph.to_d3_json`: serialize to the D3-compatible node and
link lists. -/
def LineageGraph.to_d3_json (g : LineageGraph) : List D3Node × List D3Link :=
  let tnodes := g.tables.map fun kv =>
    { id := kv.2.id, name := kv.2.name, type := kv.2.node_type,
      schema_name := kv.2.schema_name, database := kv.2.database,
      source_file := kv.2.source_file, is_cte := some kv.2.is_cte,
      table_id := none, level := "table" : D3Node }
  let cnodes := g.columns.map fun kv =>
    { id := kv.2.id, name := kv.2.name, type := "column",
      table_id := some kv.2.table_id, level := "column" : D3Node }
  (tnodes ++ cnodes, g.edges.map d3LinkOf)

/-!
## The sqlglot AST, as consumed by extractor.py

Only the shape inspected by the extractor is modelled: node kinds
(`Table`, `Column`, `Alias`, `Select`, `Insert`, `Create`, `Merge`,
`Schema`, `CTE`, `With`, `From`, `Join`, and a generic `other`), the
`this` slot, remaining children, and the string accessors used by the
code (`name`, `db`, `catalog`, `alias`, `table`, `kind`).  In sqlglot an
absent string accessor returns `""`.
-/

/-- A sqlglot expression tree. -/
inductive Exp where
  | tbl (name db catalog al : String)
  | col (name tq : String)
  | aliasE (a : String) (this : Exp)
  | selectE (projs : List Exp) (kids : List Exp)
  | insertE (this : Exp) (kids : List Exp)
  | createE (this : Exp) (kind : String) (kids : List Exp)
  | mergeE (this : Exp) (kids : List Exp)
  | schemaE (this : Exp) (kids : List Exp)
  | cteE (a : String) (this : Exp)
  | withE (kids : List Exp)
  | fromE (kids : List Exp)
  | joinE (kids : List Exp)
  | otherE (kids : List Exp)
deriving Repr

/-- Node kind, used to model `isinstance(node.parent, ...)` checks. -/
inductive Kind where
  | root | tblK | colK | aliasK | selectK | insertK | createK | mergeK
  | schemaK | cteK | withK | fromK | joinK | otherK
deriving DecidableEq, Repr

/-- The kind of a node. -/
def Exp.kind : Exp → Kind
  | .tbl .. => .tblK
  | .col .. => .colK
  | .aliasE .. => .aliasK
  | .selectE .. => .selectK
  | .insertE .. => .insertK
  | .createE .. => .createK
  | .mergeE .. => .mergeK
  | .schemaE .. => .schemaK
  | .cteE .. => .cteK
  | .withE .. => .withK
  | .fromE .. => .fromK
  | .joinE .. => .joinK
  | .otherE .. => .otherK

/-- The children of a node, in argument order (`this` first). -/
def Exp.children : Exp → List Exp
  | .tbl .. => []
  | .col .. => []
  | .aliasE _ t => [t]
  | .selectE ps ks => ps ++ ks
  | .insertE t ks => t :: ks
  | .createE t _ ks => t :: ks
  | .mergeE t ks => t :: ks
  | .schemaE t ks => t :: ks
  | .cteE _ t => [t]
  | .withE ks => ks
  | .fromE ks => ks
  | .joinE ks => ks
  | .otherE ks => ks

mutual

/-- Number of nodes in a tree. -/
def Exp.size : Exp → Nat
  | .tbl .. => 1
  | .col .. => 1
  | .aliasE _ t => 1 + t.size
  | .selectE ps ks => 1 + sizeL ps + sizeL ks
  | .insertE t ks => 1 + t.size + sizeL ks
  | .createE t _ ks => 1 + t.size + sizeL ks
  | .mergeE t ks => 1 + t.size + sizeL ks
  | .schemaE t ks => 1 + t.size + sizeL ks
  | .cteE _ t => 1 + t.size
  | .withE ks => 1 + sizeL ks
  | .fromE ks => 1 + sizeL ks
  | .joinE ks => 1 + sizeL ks
  | .otherE ks => 1 + sizeL ks

/-- Number of nodes in a forest. -/
def sizeL : List Exp → Nat
  | [] => 0
  | e :: es => e.size + sizeL es

end

/-- Breadth-first traversal of a queue of (parent kind, node) pairs.
Each step pops one pair and enqueues the node's children tagged with the
node's kind; the fuel bounds the number of pops. -/
def bfsAux : Nat → List (Kind × Exp) → List (Kind × Exp)
  | 0, _ => []
  | _ + 1, [] => []
  | fuel + 1, (p, e) :: q =>
      (p, e) :: bfsAux fuel (q ++ e.children.map fun c => (e.kind, c))

/-- `Expression.walk(bfs=True)` together with each node's parent kind.
The root's parent kind is `Kind.root`.  The fuel `e.size` is exactly the
number of nodes of the tree, hence exactly the number of pops needed. -/
def Exp.walk (e : Exp) : List (Kind × Exp) :=
  bfsAux e.size [(.root, e)]

/-- `isinstance(e, exp.Table)`. -/
def Exp.isTbl : Exp → Bool
  | .tbl .. => true
  | _ => false

/-- `isinstance(e, exp.Column)`. -/
def Exp.isCol : Exp → Bool
  | .col .. => true
  | _ => false

/-- `isinstance(e, exp.Select)`. -/
def Exp.isSelect : Exp → Bool
  | .selectE .. => true
  | _ => false

/-- `isinstance(e, exp.With)`. -/
def Exp.isWith : Exp → Bool
  | .withE .. => true
  | _ => false

/-- `isinstance(e, exp.From)`. -/
def Exp.isFrom : Exp → Bool
  | .fromE .. => true
  | _ => false

/-- `isinstance(e, exp.Join)`. -/
def Exp.isJoin : Exp → Bool
  | .joinE .. => true
  | _ => false

/-- `table_expr.name` (empty for non-tables). -/
def Exp.tname : Exp → String
  | .tbl n _ _ _ => n
  | _ => ""

/-- `table_expr.db`. -/
def Exp.tdb : Exp → String
  | .tbl _ d _ _ => d
  | _ => ""

/-- `table_expr.catalog`. -/
def Exp.tcat : Exp → String
  | .tbl _ _ c _ => c
  | _ => ""

/-- `table_expr.alias`. -/
def Exp.talias : Exp → String
  | .tbl _ _ _ a => a
  | _ => ""

/-- `col_ref.name`. -/
def Exp.cname : Exp → String
  | .col n _ => n
  | _ => ""

/-- `col_ref.table` (the column's table qualifier text, `""` if none). -/
def Exp.ctq : Exp → String
  | .col _ q => q
  | _ => ""

mutual

/-- Models the AST adapter's SQL rendering `e.sql()`; only used as
provenance text on column edges, never interpreted. -/
def Exp.sqlText : Exp → String
  | .tbl n _ _ _ => n
  | .col n q => if q = "" then n else q ++ "." ++ n
  | .aliasE a t => t.sqlText ++ " AS " ++ a
  | .selectE ps ks => "SELECT " ++ sqlTextL ps ++ " " ++ sqlTextL ks
  | .insertE t ks => "INSERT " ++ t.sqlText ++ " " ++ sqlTextL ks
  | .createE t k ks => "CREATE " ++ k ++ " " ++ t.sqlText ++ " " ++ sqlTextL ks
  | .mergeE t ks => "MERGE " ++ t.sqlText ++ " " ++ sqlTextL ks
  | .schemaE t ks => t.sqlText ++ " " ++ sqlTextL ks
  | .cteE a t => a ++ " AS " ++ t.sqlText
  | .withE ks => "WITH " ++ sqlTextL ks
  | .fromE ks => "FROM " ++ sqlTextL ks
  | .joinE ks => "JOIN " ++ sqlTextL ks
  | .otherE ks => sqlTextL ks

/-- Renders a list of expressions separated by commas. -/
def sqlTextL : List Exp → String
  | [] => ""
  | [e] => e.sqlText
  | e :: es => e.sqlText ++ ", " ++ sqlTextL es

end

/-!
## extractor.py
-/

/-- `_parse_table_ref`: convert a sqlglot Table expression into a `Table`. -/
def parse_table_ref (e : Exp) : Table :=
  { name := e.tname,
    schema_name := if e.tdb = "" then none else some e.tdb,
    database := if e.tcat = "" then none else some e.tcat,
    source_file := none,
    is_cte := false }

/-- The parent-kind test of `_get_source_tables`: a table reference is
skipped when its parent is an `Insert`, `Create`, `Merge` or `CTE` node. -/
def skipParent (p : Kind) : Bool :=
  p == .insertK || p == .createK || p == .mergeK || p == .cteK

/-- `_get_source_tables`: walk the statement, keep table references whose
parent is not an Insert/Create/Merge/CTE node, deduplicating by
lowercased qualified name (first seen wins). -/
def get_source_tables (e : Exp) : List Table :=
  (e.walk.foldl
    (fun (acc : List Table × List String) pe =>
      if pe.2.isTbl then
        if skipParent pe.1 then acc
        else
          let t := parse_table_ref pe.2
          let key := (strLower t.qualified_name)
          if acc.2.contains key then acc
          else (acc.1 ++ [t], acc.2 ++ [key])
      else acc)
    ([], [])).1

/-- `_get_target_table`: the declared destination of an
Insert/Create/Merge statement; for `Create` an intermediate `Schema`
wrapper is unwrapped. -/
def get_target_table : Exp → Option Table
  | .insertE (.tbl n d c a) _ => some (parse_table_ref (.tbl n d c a))
  | .createE (.tbl n d c a) _ _ => some (parse_table_ref (.tbl n d c a))
  | .createE (.schemaE (.tbl n d c a) _) _ _ => some (parse_table_ref (.tbl n d c a))
  | .mergeE (.tbl n d c a) _ => some (parse_table_ref (.tbl n d c a))
  | _ => none

/-- `statement.find(exp.With)`: first `With` node in breadth-first order. -/
def findWith (st : Exp) : Option Exp :=
  (st.walk.map (·.2)).find? Exp.isWith

/-- `_get_cte_names`, reduced to the lowercased name list (the code stores
a dict `(strLower name)() → definition` but only ever tests membership). -/
def get_cte_names (st : Exp) : List String :=
  match findWith st with
  | none => []
  | some w =>
      (w.walk.map (·.2)).foldl
        (fun acc e =>
          match e with
          | .cteE a _ => if a = "" then acc else acc ++ [(strLower a)]
          | _ => acc)
        []

/-- The main `Select` of a statement: the statement itself when it is a
`Select`, else the first `Select` in breadth-first order. -/
def find_select (st : Exp) : Option Exp :=
  match st with
  | .selectE ps ks => some (.selectE ps ks)
  | _ => (st.walk.map (·.2)).find? Exp.isSelect

/-- `select.expressions`: the projection list of a `Select`. -/
def Exp.projs : Exp → List Exp
  | .selectE ps _ => ps
  | _ => []

/-- The alias map built by `_extract_column_lineage`: lowercased
alias-or-name → table.  Insertions prepend so that a later write wins on
lookup, exactly like Python dict assignment. -/
def buildAliasMap (sel : Exp) (source_tables : List Table) : List (String × Table) :=
  let m0 := source_tables.foldl (fun m t => ((strLower t.name), t) :: m) []
  let m1 := (sel.walk.filter fun pe => pe.2.isFrom).foldl
    (fun m fe =>
      (fe.2.walk.filter fun pe => pe.2.isTbl).foldl
        (fun m2 te =>
          let t := parse_table_ref te.2
          let m3 := if te.2.talias = "" then m2 else ((strLower te.2.talias), t) :: m2
          ((strLower t.name), t) :: m3)
        m)
    m0
  (sel.walk.filter fun pe => pe.2.isJoin).foldl
    (fun m je =>
      (je.2.walk.filter fun pe => pe.2.isTbl).foldl
        (fun m2 te =>
          let t := parse_table_ref te.2
          let m3 := if te.2.talias = "" then m2 else ((strLower te.2.talias), t) :: m2
          ((strLower t.name), t) :: m3)
        m)
    m1

/-- The produced output column name and inner expression of a projected
item: the explicit alias if the item is an `Alias`, else the bare column
name if it is a direct column reference. -/
def targetInner (se : Exp) : Option String × Exp :=
  match se with
  | .aliasE a inner => (some a, inner)
  | .col n q => (some n, .col n q)
  | e => (none, e)

/-- The column references considered inside a projected item's inner
expression: the item itself when it is a column, else every column node
found in it (breadth-first). -/
def colRefsOf (inner : Exp) : List Exp :=
  match inner with
  | .col n q => [.col n q]
  | e => (e.walk.map (·.2)).filter Exp.isCol

/-- Resolution of a column reference's owning table inside
`_extract_column_lineage`: an explicit qualifier is looked up in the
alias map; an unqualified reference is attributed to the sole source
table when there is exactly one, else left unresolved. -/
def resolveSourceTable (amap : List (String × Table)) (source_tables : List Table)
    (c : Exp) : Option Table :=
  if c.ctq ≠ "" then alGet (strLower c.ctq) amap
  else
    match source_tables with
    | [t] => some t
    | _ => none

/-- `_extract_column_lineage`. -/
def extract_column_lineage (st : Exp) (target_table : Option Table)
    (source_tables : List Table) (source_file : Option String) : List LineageEdge :=
  match target_table with
  | none => []
  | some tt =>
    match find_select st with
    | none => []
    | some sel =>
      let amap := buildAliasMap sel source_tables
      sel.projs.foldl
        (fun edges se =>
          let ti := targetInner se
          match ti.1 with
          | none => edges
          | some tcn =>
            if tcn = "*" then edges
            else
              let target_col : Column := { name := tcn, table := some tt }
              (colRefsOf ti.2).foldl
                (fun ed c =>
                  if c.cname = "*" then ed
                  else
                    let source_col : Column :=
                      { name := c.cname, table := resolveSourceTable amap source_tables c }
                    ed ++ [{ source := source_col.qualified_name,
                             target := target_col.qualified_name,
                             edge_type := EdgeType.column_to_column,
                             expression := some se.sqlText,
                             source_file := source_file }])
                edges)
        []

/-- `parts[0].split(".")[-1]`: the last dot-separated component. -/
def lastPart (s : String) : String :=
  match (splitDots s).reverse with
  | [] => s
  | x :: _ => x

/-- Registers the column node for one endpoint of a column edge inside
`_process_statement` (only when `rsplit(".", 1)` yields two parts). -/
def registerColumn (g : LineageGraph) (endpoint : String) : LineageGraph :=
  match rsplit1 endpoint with
  | [tp, cp] =>
      (g.add_column { name := cp, table := some { name := lastPart tp } }).1
  | _ => g

/-- `_process_statement`. -/
def process_statement (g : LineageGraph) (st : Exp) (source_file : Option String)
    (include_columns : Bool) : LineageGraph :=
  let ctes := get_cte_names st
  let target_table := get_target_table st
  let target_node_type :=
    match st with
    | .createE _ k _ => if k ≠ "" ∧ (strUpper k) = "VIEW" then "view" else "table"
    | _ => "table"
  let source_tables := get_source_tables st
  match target_table with
  | none =>
    if st.isSelect then
      -- standalone SELECT: register sources only, flagging CTEs
      source_tables.foldl
        (fun gg s0 =>
          let is_cte := ctes.contains (strLower s0.name)
          let s1 := { s0 with source_file := source_file, is_cte := is_cte }
          (gg.add_table s1 (if is_cte then "cte" else "table")).1)
        g
    else
      -- DDL without lineage interest: register referenced tables
      source_tables.foldl
        (fun gg s0 =>
          let s1 := { s0 with source_file := source_file }
          (gg.add_table s1 "table").1)
        g
  | some tt0 =>
    let tt := { tt0 with source_file := source_file }
    let g1 := (g.add_table tt target_node_type).1
    let srcs := source_tables.map fun s0 =>
      { s0 with source_file := source_file, is_cte := ctes.contains (strLower s0.name) }
    let g2 := srcs.foldl
      (fun gg s1 =>
        let gg1 := (gg.add_table s1 (if s1.is_cte then "cte" else "table")).1
        gg1.add_edge
          { source := s1.qualified_name, target := tt.qualified_name,
            edge_type := EdgeType.table_to_table, expression := none,
            source_file := source_file })
      g1
    if include_columns then
      (extract_column_lineage st (some tt) srcs source_file).foldl
        (fun gg ce =>
          let gg1 := registerColumn gg ce.source
          let gg2 := registerColumn gg1 ce.target
          gg2.add_edge ce)
        g2
    else g2

/-- `extract_lineage`. -/
def extract_lineage (statements : List Exp) (source_file : Option String)
    (include_columns : Bool) : LineageGraph :=
  statements.foldl
    (fun g st => process_statement g st source_file include_columns)
    {}

/-!
## resolver.py

Parsing is the outside AST Adapter capability; `resolve_sql_strings` is
parameterized by a `parse` function returning either statement trees or
a parse failure (the exception caught by the `except` clause).  The
`print` warning of the source is modelled as an accumulated list of
(source name, cause) diagnostics.
-/

/-- `resolve_sql_strings`: fold over (name, sql) items, merging the
per-source graph of each successfully parsed item into the unified
graph, and recording a diagnostic (continuing with the remaining items)
for each item whose parse fails. -/
def resolve_sql_strings (parse : String → Except String (List Exp))
    (sql_strings : List (String × String)) (include_columns : Bool) :
    LineageGraph × List (String × String) :=
  sql_strings.foldl
    (fun (acc : LineageGraph × List (String × String)) it =>
      match parse it.2 with
      | .ok stmts =>
          (acc.1.merge (extract_lineage stmts (some it.1) include_columns), acc.2)
      | .error e => (acc.1, acc.2 ++ [(it.1, e)]))
    ({}, [])

/-- The adjacency and in-degree maps built by `get_execution_order`.
Both dictionaries have exactly the table ids as keys (the build loop
only ever touches existing keys), so they are modelled as total
functions; adjacency sets are modelled as insertion-ordered duplicate-free
lists (`set.add`). In-degrees are integers, as in Python. -/
structure KahnData where
  adjF : String → List String
  indegF : String → Int

/-- One step of the adjacency/in-degree build loop of
`get_execution_order`: for a `table_to_table` edge whose lowercased
endpoints are both registered table ids, add the target to the source's
adjacency set and increment the target's in-degree. -/
def buildKahnStep (ids : List String) (st : KahnData) (e : LineageEdge) : KahnData :=
  if e.edge_type = EdgeType.table_to_table then
    let src := (strLower e.source)
    let tgt := (strLower e.target)
    if ids.contains src && ids.contains tgt then
      { adjF := fun u =>
          if u = src then
            if (st.adjF src).contains tgt then st.adjF src
            else st.adjF src ++ [tgt]
          else st.adjF u,
        indegF := fun v => if v = tgt then st.indegF tgt + 1 else st.indegF v }
    else st
  else st

/-- The adjacency/in-degree build loop of `get_execution_order`. -/
def buildKahn (g : LineageGraph) : KahnData :=
  let ids := g.tables.map (·.1)
  g.edges.foldl (buildKahnStep ids)
    { adjF := fun _ => [], indegF := fun _ => 0 }

/-- The body of one iteration of the Kahn loop: for each neighbor of the
dequeued node, decrement its in-degree and enqueue it when the new
in-degree is zero. -/
def kahnStep (adjF : String → List String) (node : String)
    (indegF : String → Int) (queue : List String) :
    (String → Int) × List String :=
  (adjF node).foldl
    (fun (acc : (String → Int) × List String) v =>
      let d := acc.1 v - 1
      (fun x => if x = v then d else acc.1 x,
       if d = 0 then acc.2 ++ [v] else acc.2))
    (indegF, queue)

/-- The `while queue:` loop of `get_execution_order`: pop the front of
the queue, append it to the order, process its neighbors. -/
def kahnLoop (adjF : String → List String) :
    Nat → (String → Int) → List String → List String → List String
  | 0, _, _, order => order
  | _ + 1, _, [], order => order
  | fuel + 1, indegF, node :: rest, order =>
      let p := kahnStep adjF node indegF rest
      kahnLoop adjF fuel p.1 p.2 (order ++ [node])

/-- `get_execution_order`: Kahn's algorithm over the table-to-table
subgraph, then append any remaining table ids (cycles or disconnected)
in registration order. -/
def get_execution_order (g : LineageGraph) : List String :=
  let ids := g.tables.map (·.1)
  let kd := buildKahn g
  let queue0 := ids.filter fun v => kd.indegF v == 0
  let order := kahnLoop kd.adjF (ids.length + 1) kd.indegF queue0 []
  order ++ ids.filter fun t => !order.contains t

/-- A graph as extracted from SQL written with capitalized identifiers:
the tables "Source" and "Target" are registered (their node ids are
lowercased) and the table edge stores the original-case strings. -/
def gMixedCase : LineageGraph :=
  let g1 := (LineageGraph.add_table {} { name := "Source" } "table").1
  let g2 := (g1.add_table { name := "Target" } "table").1
  g2.add_edge { source := "Source", target := "Target" }

/-- A graph receiving the same edge twice under different letter case
(as two statements or two sources would produce it). -/
def gDupEdge : LineageGraph :=
  let g1 := (LineageGraph.add_table {} { name := "Source" } "table").1
  let g2 := (g1.add_table { name := "Target" } "table").1
  let g3 := g2.add_edge { source := "Source", target := "Target" }
  g3.add_edge { source := "source", target := "target" }

/-- Graphs reachable from the empty graph through the mutating graph
operations.  `merge` may bring in an arbitrary second graph: the
invariant holds however the merged-in edges were produced. -/
inductive Reachable : LineageGraph → Prop where
  | base : Reachable {}
  | add_table (g : LineageGraph) (t : Table) (ty : String) :
      Reachable g → Reachable (g.add_table t ty).1
  | add_column (g : LineageGraph) (c : Column) :
      Reachable g → Reachable (g.add_column c).1
  | add_edge (g : LineageGraph) (e : LineageEdge) :
      Reachable g → Reachable (g.add_edge e)
  | merge (g h : LineageGraph) : Reachable g → Reachable (g.merge h)

/-- The parent-filtered relation references of a statement, in walk
order: every table reference whose immediate parent is not an
Insert/Create/Merge/CTE node, converted by `_parse_table_ref`. -/
def keptRefs (e : Exp) : List Table :=
  (e.walk.filter fun pe => pe.2.isTbl && !skipParent pe.1).map
    fun pe => parse_table_ref pe.2

/-- First-occurrence deduplication by lowercased qualified name, stated
independently of the seen-set fold used in `_get_source_tables`. -/
def firstsByKey : List Table → List Table
  | [] => []
  | t :: ts =>
      t :: firstsByKey (ts.filter fun u =>
        decide (strLower u.qualified_name ≠ strLower t.qualified_name))
termination_by l => l.length
decreasing_by
  simp only [List.length_cons]
  exact Nat.lt_succ_of_le (List.length_filter_le _ _)

/-- The seen-set fold of `_get_source_tables`, restricted to the list of
already-converted tables. -/
def dedupFold : List Table → List Table × List String → List Table × List String
  | [], acc => acc
  | t :: ts, acc =>
      let key := strLower t.qualified_name
      if acc.2.contains key then dedupFold ts acc
      else dedupFold ts (acc.1 ++ [t], acc.2 ++ [key])

/-- A MERGE statement: `MERGE INTO t USING u ON ... (SELECT x FROM s)`.
The USING relation `u` sits directly under the Merge node. -/
def stMergeCase : Exp :=
  .mergeE (.tbl "t" "" "" "")
    [.tbl "u" "" "" "", .selectE [.col "x" ""] [.fromE [.tbl "s" "" "" ""]]]

/-- A CREATE whose target is wrapped in a schema-definition node:
`CREATE TABLE t2 (...) AS SELECT x FROM s2`. -/
def stSchemaCase : Exp :=
  .createE (.schemaE (.tbl "t2" "" "" "") [.otherE []]) "TABLE"
    [.selectE [.col "x" ""] [.fromE [.tbl "s2" "" "" ""]]]

/-- A statement with two source tables and an unqualified projected
column: `INSERT INTO tgt SELECT x FROM a JOIN b`. -/
def stMultiSrc : Exp :=
  .insertE (.tbl "tgt" "" "" "")
    [.selectE [.col "x" ""] [.fromE [.tbl "a" "" "" ""], .joinE [.tbl "b" "" "" ""]]]

/-- Edge-key membership in an edge list. -/
def edgeKeyMem (k : String × String × EdgeType) (l : List LineageEdge) : Bool :=
  l.any fun e => decide (e.key = k)

/-- A statement for the C6 witness: `CREATE TABLE good AS SELECT id FROM src`. -/
def stGood : Exp :=
  .createE (.tbl "good" "" "" "") "TABLE"
    [.selectE [.col "id" ""] [.fromE [.tbl "src" "" "" ""]]]

/-- A stub AST adapter: fails on the invalid text, succeeds otherwise. -/
def parseStub : String → Except String (List Exp) :=
  fun s => if s = "THIS IS NOT VALID SQL" then .error "ParseError: invalid"
    else .ok [stGood]

/-- Position of the first occurrence of an element in a list (the
list's length when absent). -/
def idxOf : List String → String → Nat
  | [], _ => 0
  | x :: xs, y => if x = y then 0 else idxOf xs y + 1

/-- The build loop of `get_execution_order`, over an explicit id list. -/
def buildFold (ids : List String) (l : List LineageEdge) : KahnData :=
  l.foldl (buildKahnStep ids) { adjF := fun _ => [], indegF := fun _ => 0 }

/-- The invariant of the Kahn loop in `get_execution_order`: `order` and
`queue` hold pairwise-distinct registered ids; every counter equals the
number of not-yet-ordered in-neighbors; a node has been seen (ordered or
enqueued) exactly when all its in-neighbors are ordered; and the order
built so far respects every adjacency edge. -/
structure KahnInv (ids : List String) (adjF : String → List String)
    (indegF : String → Int) (queue order : List String) : Prop where
  nd : (order ++ queue).Nodup
  oss : ∀ x ∈ order, x ∈ ids
  qss : ∀ x ∈ queue, x ∈ ids
  deg : ∀ v, indegF v =
    ((ids.filter fun u => decide (v ∈ adjF u ∧ u ∉ order)).length : Int)
  reach : ∀ v ∈ ids, (v ∈ order ∨ v ∈ queue) ↔ (∀ u ∈ ids, v ∈ adjF u → u ∈ order)
  sound : ∀ u v, v ∈ adjF u → v ∈ order →
    u ∈ order ∧ idxOf order u < idxOf order v

/-- Registration order c, b, a with the cycle a ⇄ b and the edge b → c:
the cycle starves the whole component, so Kahn's phase orders nothing
and all three ids are appended in registration order. -/
def gCycle : LineageGraph :=
  let g1 := (LineageGraph.add_table {} { name := "c" } "table").1
  let g2 := (g1.add_table { name := "b" } "table").1
  let g3 := (g2.add_table { name := "a" } "table").1
  let g4 := g3.add_edge { source := "b", target := "c" }
  let g5 := g4.add_edge { source := "a", target := "b" }
  g5.add_edge { source := "b", target := "a" }

/-- The single edge of the C1 witness graph. -/
def edgeAB : LineageEdge :=
  { source := "a", target := "b" }

/-- An acyclic two-table graph for the C1 witness, with the edge a → b. -/
def gAcyclic : LineageGraph :=
  let g1 := (LineageGraph.add_table {} { name := "b" } "table").1
  let g2 := (g1.add_table { name := "a" } "table").1
  g2.add_edge edgeAB

/-- A ranking witnessing acyclicity of `gAcyclic`. -/
def rankW : String → Nat :=
  fun s => if s = "b" then 1 else 0

/-- A cyclic graph with a disconnected extra node for the C3 witness. -/
def gCycW : LineageGraph :=
  let g1 := (LineageGraph.add_table {} { name := "x" } "table").1
  let g2 := (g1.add_table { name := "y" } "table").1
  let g3 := (g2.add_table { name := "z" } "table").1
  let g4 := g3.add_edge { source := "x", target := "y" }
  g4.add_edge { source := "y", target := "x" }

/-!
## Basic lemmas about the graph operations
-/

lemma keyMem_true_iff {α : Type} (k : String) (l : List (String × α)) :
    keyMem k l = true ↔ ∃ kv ∈ l, kv.1 = k := by
  simp [keyMem]

lemma keyMem_of_mem {α : Type} {kv : String × α} {l : List (String × α)}
    (h : kv ∈ l) : keyMem kv.1 l = true :=
  (keyMem_true_iff _ _).2 ⟨kv, h, rfl⟩

lemma alGet_append_left {α : Type} {k : String} {l1 : List (String × α)} {v : α}
    (l2 : List (String × α)) (h : alGet k l1 = some v) :
    alGet k (l1 ++ l2) = some v := by
  induction l1 with
  | nil => simp [alGet] at h
  | cons p ps ih =>
    by_cases hp : p.1 = k
    · simpa [alGet, hp] using h
    · simp only [alGet, hp, if_false, List.cons_append] at h ⊢
      exact ih h

lemma add_table_snd (g : LineageGraph) (t : Table) (ty : String) :
    (g.add_table t ty).2 = (strLower t.qualified_name) := by
  by_cases h : keyMem (strLower t.qualified_name) g.tables = true <;>
    simp [LineageGraph.add_table, h]

lemma add_column_snd (g : LineageGraph) (c : Column) :
    (g.add_column c).2 = (strLower c.qualified_name) := by
  by_cases h : keyMem (strLower c.qualified_name) g.columns = true <;>
    simp [LineageGraph.add_column, h]

lemma add_table_of_keyMem {g : LineageGraph} {t : Table} (ty : String)
    (h : keyMem (strLower t.qualified_name) g.tables = true) :
    (g.add_table t ty).1 = g := by
  unfold LineageGraph.add_table
  simp [h]

lemma add_column_of_keyMem {g : LineageGraph} {c : Column}
    (h : keyMem (strLower c.qualified_name) g.columns = true) :
    (g.add_column c).1 = g := by
  unfold LineageGraph.add_column
  simp [h]

lemma add_table_keyMem (g : LineageGraph) (t : Table) (ty : String) :
    keyMem (strLower t.qualified_name) (g.add_table t ty).1.tables = true := by
  by_cases h : keyMem (strLower t.qualified_name) g.tables = true
  · simp only [LineageGraph.add_table, h, if_true]
  · simp only [LineageGraph.add_table, h]
    simp [keyMem]

lemma add_edge_of_dup {g : LineageGraph} {e : LineageEdge}
    (h : ∃ e2 ∈ g.edges, e2.key = e.key) : g.add_edge e = g := by
  have hb : g.edges.any (fun e2 => edgeKeyEq e2 e) = true := by
    obtain ⟨e2, hm, hk⟩ := h
    simp [List.any_eq_true, edgeKeyEq]
    exact ⟨e2, hm, hk⟩
  unfold LineageGraph.add_edge
  simp [hb]

lemma add_edge_tables (g : LineageGraph) (e : LineageEdge) :
    (g.add_edge e).tables = g.tables := by
  unfold LineageGraph.add_edge
  split <;> rfl

lemma add_edge_columns (g : LineageGraph) (e : LineageEdge) :
    (g.add_edge e).columns = g.columns := by
  unfold LineageGraph.add_edge
  split <;> rfl

lemma add_edge_edges (g : LineageGraph) (e : LineageEdge) :
    (g.add_edge e).edges = g.edges ∨ (g.add_edge e).edges = g.edges ++ [e] := by
  unfold LineageGraph.add_edge
  split
  · exact Or.inl rfl
  · exact Or.inr rfl

lemma foldl_insert_self {α : Type} (l : List (String × α)) (acc : List (String × α))
    (h : ∀ kv ∈ l, keyMem kv.1 acc = true) :
    l.foldl (fun acc kv => if keyMem kv.1 acc then acc else acc ++ [kv]) acc = acc := by
  induction l with
  | nil => rfl
  | cons kv l ih =>
    have hk := h kv (by simp)
    simp only [List.foldl_cons, hk, if_true]
    exact ih fun kv2 h2 => h kv2 (by simp [h2])

lemma foldl_insert_extends {α : Type} (l : List (String × α)) :
    ∀ acc, ∃ tl,
      l.foldl (fun acc kv => if keyMem kv.1 acc then acc else acc ++ [kv]) acc = acc ++ tl := by
  induction l with
  | nil => exact fun acc => ⟨[], by simp⟩
  | cons kv l ih =>
    intro acc
    by_cases hk : keyMem kv.1 acc = true
    · simpa [hk] using ih acc
    · obtain ⟨tl, htl⟩ := ih (acc ++ [kv])
      refine ⟨kv :: tl, ?_⟩
      simp only [List.foldl_cons, hk]
      simp only [Bool.false_eq_true, if_false]
      rw [htl, List.append_assoc]
      rfl

lemma foldl_add_edge_shape (l : List LineageEdge) :
    ∀ g : LineageGraph, ∃ tl,
      l.foldl (fun acc e => acc.add_edge e) g =
        { g with edges := g.edges ++ tl } := by
  induction l with
  | nil => exact fun g => ⟨[], by simp⟩
  | cons e l ih =>
    intro g
    rcases add_edge_edges g e with he | he
    · obtain ⟨tl, htl⟩ := ih (g.add_edge e)
      refine ⟨tl, ?_⟩
      have hg : g.add_edge e = g := by
        unfold LineageGraph.add_edge at he ⊢
        by_cases hb : (g.edges.any fun e2 => edgeKeyEq e2 e) = true
        · simp [hb]
        · simp only [hb, Bool.false_eq_true, if_false] at he
          have hlen := congrArg List.length he
          simp at hlen
      simpa [List.foldl_cons, hg] using htl
    · obtain ⟨tl, htl⟩ := ih (g.add_edge e)
      refine ⟨e :: tl, ?_⟩
      have hT := add_edge_tables g e
      have hC := add_edge_columns g e
      simp only [List.foldl_cons, htl]
      cases g4 : g.add_edge e with
      | mk t4 c4 e4 =>
        cases g with
        | mk t c ed =>
          simp [g4] at hT hC he
          simp [hT, hC, he, List.append_assoc]

lemma foldl_add_edge_self (l : List LineageEdge) (g : LineageGraph)
    (h : ∀ e ∈ l, ∃ e2 ∈ g.edges, e2.key = e.key) :
    l.foldl (fun acc e => acc.add_edge e) g = g := by
  induction l with
  | nil => rfl
  | cons e l ih =>
    have he := add_edge_of_dup (h e (by simp))
    simp only [List.foldl_cons, he]
    exact ih fun e2 h2 => h e2 (by simp [h2])

lemma merge_tables_extends (g h : LineageGraph) :
    ∃ tl, (g.merge h).tables = g.tables ++ tl := by
  unfold LineageGraph.merge
  obtain ⟨tl1, htl1⟩ := foldl_insert_extends h.tables g.tables
  obtain ⟨tl3, htl3⟩ := foldl_add_edge_shape h.edges
    { g with
      tables := h.tables.foldl (fun acc kv => if keyMem kv.1 acc then acc else acc ++ [kv]) g.tables,
      columns := h.columns.foldl (fun acc kv => if keyMem kv.1 acc then acc else acc ++ [kv]) g.columns }
  rw [htl3]
  exact ⟨tl1, by simp [htl1]⟩

lemma merge_columns_extends (g h : LineageGraph) :
    ∃ tl, (g.merge h).columns = g.columns ++ tl := by
  unfold LineageGraph.merge
  obtain ⟨tl1, htl1⟩ := foldl_insert_extends h.columns g.columns
  obtain ⟨tl3, htl3⟩ := foldl_add_edge_shape h.edges
    { g with
      tables := h.tables.foldl (fun acc kv => if keyMem kv.1 acc then acc else acc ++ [kv]) g.tables,
      columns := h.columns.foldl (fun acc kv => if keyMem kv.1 acc then acc else acc ++ [kv]) g.columns }
  rw [htl3]
  exact ⟨tl1, by simp [htl1]⟩

lemma merge_edges_extends (g h : LineageGraph) :
    ∃ tl, (g.merge h).edges = g.edges ++ tl := by
  unfold LineageGraph.merge
  obtain ⟨tl3, htl3⟩ := foldl_add_edge_shape h.edges
    { g with
      tables := h.tables.foldl (fun acc kv => if keyMem kv.1 acc then acc else acc ++ [kv]) g.tables,
      columns := h.columns.foldl (fun acc kv => if keyMem kv.1 acc then acc else acc ++ [kv]) g.columns }
  rw [htl3]
  exact ⟨tl3, by simp⟩

/-!
## Claims C10, C5, C9
-/

/-- C10: merging a lineage graph into itself — or merging in a second
extraction of an identical statement list — leaves the table node list,
the column node list and the edge list unchanged: `merge` is idempotent. -/
theorem merge_self_idempotent :
    (∀ g : LineageGraph, g.merge g = g) ∧
    (∀ (stmts : List Exp) (sf : Option String) (ic : Bool),
      (extract_lineage stmts sf ic).merge (extract_lineage stmts sf ic) =
        extract_lineage stmts sf ic) := by
  have hmain : ∀ g : LineageGraph, g.merge g = g := by
    intro g
    show (LineageGraph.merge g g) = g
    unfold LineageGraph.merge
    simp only [foldl_insert_self g.tables g.tables fun kv h => keyMem_of_mem h,
        foldl_insert_self g.columns g.columns fun kv h => keyMem_of_mem h]
    exact foldl_add_edge_self g.edges g fun e he => ⟨e, he, rfl⟩
  exact ⟨hmain, fun stmts sf ic => hmain _⟩

/-- C5: two tables whose qualified names agree up to letter case get the
same node id from `add_table`, adding both yields a single node, and
upstream/downstream lookups agree on ids that agree up to case. -/
theorem case_variants_single_node (t1 t2 : Table)
    (h : (strLower t1.qualified_name) = (strLower t2.qualified_name)) :
    (∀ (g : LineageGraph) (ty1 ty2 : String),
      (g.add_table t1 ty1).2 = (g.add_table t2 ty2).2 ∧
      ((g.add_table t1 ty1).1.add_table t2 ty2).1 = (g.add_table t1 ty1).1) ∧
    (∀ (g : LineageGraph) (id1 id2 : String), (strLower id1) = (strLower id2) →
      g.get_upstream id1 = g.get_upstream id2 ∧
      g.get_downstream id1 = g.get_downstream id2) := by
  constructor
  · intro g ty1 ty2
    constructor
    · rw [add_table_snd, add_table_snd, h]
    · apply add_table_of_keyMem
      rw [← h]
      exact add_table_keyMem g t1 ty1
  · intro g id1 id2 h12
    constructor
    · unfold LineageGraph.get_upstream
      simp only [h12]
    · unfold LineageGraph.get_downstream
      simp only [h12]

/-- C5 witness: "Source" and "source" are one table node; upstream
lookups agree across case variants. -/
theorem case_variants_single_node_witness :
    (strLower ({ name := "Source" } : Table).qualified_name =
      strLower ({ name := "source" } : Table).qualified_name) ∧
    ((({} : LineageGraph).add_table { name := "Source" } "table").2 =
      (({} : LineageGraph).add_table { name := "source" } "table").2) ∧
    (((({} : LineageGraph).add_table { name := "Source" } "table").1.add_table
        { name := "source" } "table").1 =
      (({} : LineageGraph).add_table { name := "Source" } "table").1) ∧
    (({ edges := [{ source := "src", target := "Tgt" }] } : LineageGraph).get_upstream "TGT" =
      ({ edges := [{ source := "src", target := "Tgt" }] } : LineageGraph).get_upstream "tgt") := by
  have h := case_variants_single_node { name := "Source" } { name := "source" } (by decide)
  exact ⟨by decide, (h.1 {} "table" "table").1, (h.1 {} "table" "table").2,
    (h.2 _ "TGT" "tgt" (by decide)).1⟩

/-- C9: stored content never changes once present — `add_table`,
`add_column` and `add_edge` are no-ops on key collisions, and `merge`
preserves every existing node binding and keeps the existing edge list
as an unchanged initial segment (first-writer-wins). -/
theorem first_writer_wins :
    (∀ (g : LineageGraph) (t : Table) (ty : String),
        keyMem (strLower t.qualified_name) g.tables = true → (g.add_table t ty).1 = g) ∧
    (∀ (g : LineageGraph) (c : Column),
        keyMem (strLower c.qualified_name) g.columns = true → (g.add_column c).1 = g) ∧
    (∀ (g : LineageGraph) (e : LineageEdge),
        (∃ e2 ∈ g.edges, e2.key = e.key) → g.add_edge e = g) ∧
    (∀ (g h : LineageGraph) (k : String) (n : TableNode),
        alGet k g.tables = some n → alGet k (g.merge h).tables = some n) ∧
    (∀ (g h : LineageGraph) (k : String) (n : ColumnNode),
        alGet k g.columns = some n → alGet k (g.merge h).columns = some n) ∧
    (∀ g h : LineageGraph, ∃ tl, (g.merge h).edges = g.edges ++ tl) := by
  refine ⟨fun g t ty h => add_table_of_keyMem ty h,
    fun g c h => add_column_of_keyMem h,
    fun g e h => add_edge_of_dup h, ?_, ?_, merge_edges_extends⟩
  · intro g h k n hget
    obtain ⟨tl, htl⟩ := merge_tables_extends g h
    rw [htl]
    exact alGet_append_left tl hget
  · intro g h k n hget
    obtain ⟨tl, htl⟩ := merge_columns_extends g h
    rw [htl]
    exact alGet_append_left tl hget

/-- C9 witness: a colliding re-insert with different metadata is a
no-op, and merge keeps existing bindings. -/
theorem first_writer_wins_witness :
    ((({ tables := [("t", { id := "t", name := "t" })] } : LineageGraph).add_table
        { name := "T", schema_name := none } "view").1 =
      { tables := [("t", { id := "t", name := "t" })] }) ∧
    (alGet "t"
        (({ tables := [("t", { id := "t", name := "t" })] } : LineageGraph).merge
          { tables := [("t", { id := "t", name := "other", node_type := "view" })] }).tables =
      some { id := "t", name := "t" }) ∧
    ((({ edges := [{ source := "a", target := "b" }] } : LineageGraph).add_edge
        { source := "A", target := "B", expression := some "x" }) =
      { edges := [{ source := "a", target := "b" }] }) := by
  refine ⟨first_writer_wins.1 _ { name := "T", schema_name := none } "view" (by decide),
    ?_, first_writer_wins.2.2.1 _ { source := "A", target := "B", expression := some "x" }
      (by decide)⟩
  exact first_writer_wins.2.2.2.1 _
    { tables := [("t", { id := "t", name := "other", node_type := "view" })] }
    "t" { id := "t", name := "t" } (by decide)

/-!
## Claim C8: identifiers in the d3 serialization
-/

lemma d3LinkOf_source (e : LineageEdge) : (d3LinkOf e).source = e.source := by
  unfold d3LinkOf
  by_cases h : e.edge_type = EdgeType.column_to_column
  · simp only [h, if_true]
    rcases hs : rsplit1 e.source with _ | ⟨a, _ | ⟨b, _ | _⟩⟩ <;>
      rcases ht : rsplit1 e.target with _ | ⟨x, _ | ⟨y, _ | _⟩⟩ <;> rfl
  · simp only [h]
    rfl

lemma d3LinkOf_target (e : LineageEdge) : (d3LinkOf e).target = e.target := by
  unfold d3LinkOf
  by_cases h : e.edge_type = EdgeType.column_to_column
  · simp only [h, if_true]
    rcases hs : rsplit1 e.source with _ | ⟨a, _ | ⟨b, _ | _⟩⟩ <;>
      rcases ht : rsplit1 e.target with _ | ⟨x, _ | ⟨y, _ | _⟩⟩ <;> rfl
  · simp only [h]
    rfl

/-- C8 counterexample: a graph holding the tables "Source" and "Target"
(as written in the SQL) and the table edge between them.  The serialized
node ids are lowercased, but the link's source and target are the
edge's stored strings verbatim: the link source "Source" is not
lowercased and matches no serialized node id, refuting the claim that
every serialized identifier is the lowercased qualified name. -/
theorem d3_link_not_lowercased :
    (gMixedCase.to_d3_json.1.map (fun n => n.id) = ["source", "target"]) ∧
    (gMixedCase.to_d3_json.2.map (fun l => l.source) = ["Source"]) ∧
    ¬ (∀ l ∈ gMixedCase.to_d3_json.2,
        l.source = strLower l.source ∧
        (∃ n ∈ gMixedCase.to_d3_json.1, n.id = l.source)) := by
  exact ⟨by decide, by decide, by decide⟩

/-- C8 amended: in the serialization, node ids are exactly the stored
node ids (which `add_table`/`add_column` lowercase at insertion time),
while every link carries its edge's endpoint strings verbatim — the
original case is preserved, so link endpoints match node ids only up to
lowercasing, not literally. -/
theorem d3_serialization_identifiers :
    (∀ g : LineageGraph,
      g.to_d3_json.1.map (fun n => n.id) =
        g.tables.map (fun kv => kv.2.id) ++ g.columns.map (fun kv => kv.2.id) ∧
      g.to_d3_json.2.map (fun l => (l.source, l.target)) =
        g.edges.map (fun e => (e.source, e.target))) ∧
    (∀ (g : LineageGraph) (t : Table) (ty : String),
        (g.add_table t ty).2 = strLower t.qualified_name) ∧
    (∀ (g : LineageGraph) (c : Column),
        (g.add_column c).2 = strLower c.qualified_name) := by
  refine ⟨fun g => ⟨?_, ?_⟩, add_table_snd, add_column_snd⟩
  · simp only [LineageGraph.to_d3_json, List.map_append, List.map_map]
    rfl
  · simp only [LineageGraph.to_d3_json, List.map_map]
    refine List.map_congr_left fun e he => ?_
    simp [Function.comp, d3LinkOf_source, d3LinkOf_target]

/-!
## Claim C4: edge deduplication invariant
-/

lemma add_table_edges (g : LineageGraph) (t : Table) (ty : String) :
    (g.add_table t ty).1.edges = g.edges := by
  by_cases h : keyMem (strLower t.qualified_name) g.tables = true <;>
    simp [LineageGraph.add_table, h]

lemma add_column_edges (g : LineageGraph) (c : Column) :
    (g.add_column c).1.edges = g.edges := by
  by_cases h : keyMem (strLower c.qualified_name) g.columns = true <;>
    simp [LineageGraph.add_column, h]

lemma add_edge_keys_nodup {g : LineageGraph} (e : LineageEdge)
    (h : (g.edges.map LineageEdge.key).Nodup) :
    ((g.add_edge e).edges.map LineageEdge.key).Nodup := by
  unfold LineageGraph.add_edge
  by_cases hb : (g.edges.any fun e2 => edgeKeyEq e2 e) = true
  · simpa [hb] using h
  · simp only [hb, Bool.false_eq_true, if_false]
    rw [List.map_append]
    rw [List.nodup_append]
    refine ⟨h, by simp, ?_⟩
    intro k hk1 hk2
    simp only [List.map_cons, List.map_nil, List.mem_cons, List.not_mem_nil,
      or_false] at hk2
    subst hk2
    simp only [List.mem_map] at hk1
    obtain ⟨e2, he2, hkey⟩ := hk1
    simp only [List.any_eq_true, edgeKeyEq] at hb
    exact hb ⟨e2, he2, by simpa using hkey⟩

lemma foldl_add_edge_keys_nodup (l : List LineageEdge) :
    ∀ g : LineageGraph, (g.edges.map LineageEdge.key).Nodup →
      ((l.foldl (fun acc e => acc.add_edge e) g).edges.map LineageEdge.key).Nodup := by
  induction l with
  | nil => exact fun g h => h
  | cons e l ih =>
    intro g h
    exact ih (g.add_edge e) (add_edge_keys_nodup e h)

/-- C4: in every reachable graph no two stored edges share the dedup
key (lowercased source, lowercased target, kind), and `add_edge` with a
key-colliding edge leaves the edge list unchanged. -/
theorem edge_dedup_invariant (g : LineageGraph) (hr : Reachable g) :
    ((g.edges.map LineageEdge.key).Nodup) ∧
    (∀ e : LineageEdge, (∃ e2 ∈ g.edges, e2.key = e.key) →
      (g.add_edge e).edges = g.edges) := by
  have hnodup : (g.edges.map LineageEdge.key).Nodup := by
    induction hr with
    | base => simp
    | add_table g t ty _ ih => rwa [add_table_edges]
    | add_column g c _ ih => rwa [add_column_edges]
    | add_edge g e _ ih => exact add_edge_keys_nodup e ih
    | merge g h _ ih =>
        unfold LineageGraph.merge
        exact foldl_add_edge_keys_nodup h.edges _ ih
  exact ⟨hnodup, fun e he => by rw [add_edge_of_dup he]⟩

/-- C4 witness: two statements producing the same edge under different
letter case leave a single stored edge, and a further duplicate insert
is a no-op. -/
theorem edge_dedup_invariant_witness :
    ((gDupEdge.edges.map LineageEdge.key).Nodup) ∧
    ((gDupEdge.add_edge { source := "SOURCE", target := "TARGET" }).edges =
      gDupEdge.edges) ∧
    gDupEdge.edges.length = 1 := by
  have h := edge_dedup_invariant gDupEdge
    (Reachable.add_edge _ _ (Reachable.add_edge _ _
      (Reachable.add_table _ _ _ (Reachable.add_table _ _ _ Reachable.base))))
  exact ⟨h.1, h.2 _ (by decide), by decide⟩

/-!
## Claim C2: source-table extraction
-/

lemma get_source_tables_foldl_eq (l : List (Kind × Exp)) :
    ∀ acc : List Table × List String,
      l.foldl
        (fun (acc : List Table × List String) pe =>
          if pe.2.isTbl then
            if skipParent pe.1 then acc
            else
              let t := parse_table_ref pe.2
              let key := strLower t.qualified_name
              if acc.2.contains key then acc
              else (acc.1 ++ [t], acc.2 ++ [key])
          else acc)
        acc =
      dedupFold
        ((l.filter fun pe => pe.2.isTbl && !skipParent pe.1).map
          fun pe => parse_table_ref pe.2)
        acc := by
  induction l with
  | nil => intro acc; rfl
  | cons pe l ih =>
    intro acc
    by_cases ht : pe.2.isTbl = true
    · by_cases hs : skipParent pe.1 = true
      · have hcond : (pe.2.isTbl && !skipParent pe.1) = false := by simp [hs]
        simp only [List.foldl_cons, List.filter_cons, hcond, ht, hs, if_true,
          Bool.false_eq_true, if_false]
        exact ih acc
      · have hcond : (pe.2.isTbl && !skipParent pe.1) = true := by simp [ht, hs]
        simp only [List.foldl_cons, List.filter_cons, hcond, ht, hs, if_true,
          Bool.false_eq_true, if_false, List.map_cons]
        by_cases hc : acc.2.contains (strLower (parse_table_ref pe.2).qualified_name) = true
        · simp only [hc, if_true, dedupFold]
          exact ih acc
        · simp only [hc, Bool.false_eq_true, if_false, dedupFold]
          exact ih _
    · have hcond : (pe.2.isTbl && !skipParent pe.1) = false := by simp [ht]
      simp only [List.foldl_cons, List.filter_cons, hcond, ht,
        Bool.false_eq_true, if_false]
      exact ih acc

lemma seen_filter_pointwise (seen : List String) (k : String) (u : Table) :
    (!(seen ++ [k]).contains (strLower u.qualified_name)) =
      (decide (strLower u.qualified_name ≠ k) &&
        !seen.contains (strLower u.qualified_name)) := by
  by_cases h1 : strLower u.qualified_name = k <;>
    by_cases h2 : strLower u.qualified_name ∈ seen <;>
      simp [List.elem_eq_mem, h1, h2]

lemma dedupFold_firstsByKey (l : List Table) :
    ∀ (acc : List Table) (seen : List String),
      (dedupFold l (acc, seen)).1 =
        acc ++ firstsByKey (l.filter fun t => !seen.contains (strLower t.qualified_name)) := by
  induction l with
  | nil => intro acc seen; simp [dedupFold, firstsByKey]
  | cons t ts ih =>
    intro acc seen
    by_cases hc : seen.contains (strLower t.qualified_name) = true
    · simp only [dedupFold, hc, if_true, List.filter_cons, Bool.not_true,
        Bool.false_eq_true, if_false]
      exact ih acc seen
    · simp only [dedupFold, hc, Bool.false_eq_true, if_false, List.filter_cons,
        Bool.not_false, if_true]
      rw [ih (acc ++ [t]) (seen ++ [strLower t.qualified_name])]
      rw [firstsByKey]
      have hfilters :
          (ts.filter fun u =>
            !(seen ++ [strLower t.qualified_name]).contains (strLower u.qualified_name)) =
          ((ts.filter fun u => !seen.contains (strLower u.qualified_name)).filter
            fun u => decide (strLower u.qualified_name ≠ strLower t.qualified_name)) := by
        rw [List.filter_filter]
        exact List.filter_congr fun u _ =>
          seen_filter_pointwise seen (strLower t.qualified_name) u
      rw [hfilters, List.append_assoc]
      rfl

lemma mem_firstsByKey_subset : ∀ (l : List Table) (u : Table),
    u ∈ firstsByKey l → u ∈ l := by
  intro l
  induction l using firstsByKey.induct with
  | case1 => intro u h; simp [firstsByKey] at h
  | case2 t ts ih =>
    intro u h
    rw [firstsByKey] at h
    rcases List.mem_cons.1 h with h | h
    · simp [h]
    · exact List.mem_cons_of_mem t (List.mem_of_mem_filter (ih u h))

lemma firstsByKey_keys_nodup : ∀ l : List Table,
    ((firstsByKey l).map fun t => strLower t.qualified_name).Nodup := by
  intro l
  induction l using firstsByKey.induct with
  | case1 => simp [firstsByKey]
  | case2 t ts ih =>
    rw [firstsByKey]
    simp only [List.map_cons, List.nodup_cons]
    refine ⟨?_, ih⟩
    intro hmem
    simp only [List.mem_map] at hmem
    obtain ⟨u, hu, hkey⟩ := hmem
    have := mem_firstsByKey_subset _ u hu
    have hne := List.of_mem_filter this
    simp only [decide_eq_true_eq] at hne
    exact hne hkey

/-- C2 amended: the extracted source list is exactly the list of table
references whose immediate parent is not an Insert/Create/Merge/CTE
node (so the direct write target and the direct CTE binding are
excluded, but so is a MERGE's USING relation, while a schema-wrapped
CREATE target is not excluded), deduplicated by lowercased qualified
name keeping the first occurrence in walk order; the resulting keys are
pairwise distinct. -/
theorem source_tables_first_seen_dedup (e : Exp) :
    get_source_tables e = firstsByKey (keptRefs e) ∧
    ((get_source_tables e).map fun t => strLower t.qualified_name).Nodup := by
  have heq : get_source_tables e = firstsByKey (keptRefs e) := by
    unfold get_source_tables keptRefs
    rw [get_source_tables_foldl_eq e.walk ([], [])]
    rw [dedupFold_firstsByKey _ [] []]
    simp
  exact ⟨heq, heq ▸ firstsByKey_keys_nodup (keptRefs e)⟩

/-- C2 counterexample: in `stMergeCase` the relation `u` is reachable,
is not the write target (the target is `t`), and is not a CTE binding
(the statement has no CTE node at all), yet it is absent from the
extracted sources — the MERGE USING relation is dropped.  Dually, in
`stSchemaCase` the schema-wrapped write target `t2` is itself extracted
as a source.  Both refute the claim that exactly the write target and
the CTE bindings are excluded. -/
theorem merge_using_source_dropped :
    (get_target_table stMergeCase = some { name := "t" }) ∧
    ((stMergeCase.walk.map fun pe => pe.2.tname).contains "u" = true) ∧
    (stMergeCase.walk.all fun pe => pe.2.kind ≠ Kind.cteK) = true ∧
    ((get_source_tables stMergeCase).map Table.name = ["s"]) ∧
    (get_target_table stSchemaCase = some { name := "t2" }) ∧
    ((get_source_tables stSchemaCase).map Table.name = ["t2", "s2"]) := by
  decide

/-!
## Claim C7: unqualified columns in multi-source statements
-/

lemma foldl_append_mono {α β : Type} (f : List β → α → List β)
    (hf : ∀ acc x, ∃ tl, f acc x = acc ++ tl) :
    ∀ (l : List α) (init : List β), ∃ tl, l.foldl f init = init ++ tl := by
  intro l
  induction l with
  | nil => exact fun init => ⟨[], by simp⟩
  | cons a l ih =>
    intro init
    obtain ⟨t1, ht1⟩ := hf init a
    obtain ⟨t2, ht2⟩ := ih (f init a)
    exact ⟨t1 ++ t2, by rw [List.foldl_cons, ht2, ht1, List.append_assoc]⟩

lemma foldl_mono_mem {α β : Type} (f : List β → α → List β)
    (hf : ∀ acc x, ∃ tl, f acc x = acc ++ tl)
    {x : β} {a : α} {l : List α} (ha : a ∈ l) (hx : ∀ acc, x ∈ f acc a) :
    ∀ init, x ∈ l.foldl f init := by
  induction l with
  | nil => cases ha
  | cons b l ih =>
    intro init
    rcases List.mem_cons.1 ha with rfl | hmem
    · obtain ⟨tl, htl⟩ := foldl_append_mono f hf l (f init a)
      rw [List.foldl_cons, htl]
      exact List.mem_append_left tl (hx init)
    · rw [List.foldl_cons]
      exact ih hmem (f init b)

lemma ite_append_extends {β : Type} (ed : List β) (p : Prop) [Decidable p] (x : β) :
    ∃ tl, (if p then ed else ed ++ [x]) = ed ++ tl := by
  by_cases h : p
  · exact ⟨[], by simp [h]⟩
  · exact ⟨[x], by simp [h]⟩

/-- C7 amended: for a statement whose source-table list does not have
exactly one element, an unqualified column reference inside a projected
item is not dropped — a `ColumnToColumn` edge IS produced for it, whose
source is the bare column name (the column is left without an owning
table rather than being attributed). -/
theorem multi_source_unqualified_column_edge (st : Exp) (tt : Table)
    (source_tables : List Table) (sf : Option String) (sel : Exp)
    (hsel : find_select st = some sel)
    (hn : source_tables.length ≠ 1)
    (se : Exp) (hse : se ∈ sel.projs)
    (tcn : String) (inner : Exp) (hti : targetInner se = (some tcn, inner))
    (hstar : tcn ≠ "*")
    (c : Exp) (hc : c ∈ colRefsOf inner)
    (hcstar : c.cname ≠ "*") (hq : c.ctq = "") :
    ({ source := c.cname,
       target := tt.qualified_name ++ "." ++ tcn,
       edge_type := EdgeType.column_to_column,
       expression := some se.sqlText,
       source_file := sf } : LineageEdge) ∈
      extract_column_lineage st (some tt) source_tables sf := by
  have hres : resolveSourceTable (buildAliasMap sel source_tables) source_tables c = none := by
    unfold resolveSourceTable
    rw [hq]
    simp only [ne_eq, not_true_eq_false, if_false]
    rcases source_tables with _ | ⟨a, _ | ⟨b, r⟩⟩
    · rfl
    · exact absurd rfl hn
    · rfl
  unfold extract_column_lineage
  rw [hsel]
  apply foldl_mono_mem _ ?mono hse ?here
  case mono =>
    intro acc x
    rcases hx : targetInner x with ⟨tn, xin⟩
    cases tn with
    | none => exact ⟨[], by simp [hx]⟩
    | some n =>
      by_cases hns : n = "*"
      · exact ⟨[], by simp [hx, hns]⟩
      · simp only [hx, hns, if_false]
        apply foldl_append_mono
        intro ed cr
        exact ite_append_extends ed _ _
  case here =>
    intro acc
    simp only [hti, hstar, if_false]
    apply foldl_mono_mem _ ?imono hc ?ihere
    case imono =>
      intro ed cr
      exact ite_append_extends ed _ _
    case ihere =>
      intro ed
      simp only [hcstar, if_false, hres]
      simp [Column.qualified_name]

/-- C7 counterexample: for the two-source statement `stMultiSrc` the
unqualified reference `x` cannot be resolved, yet a `ColumnToColumn`
edge (`x` → `tgt.x`, with a bare unqualified source) IS produced, both
by `_extract_column_lineage` and in the extracted graph — refuting the
claim that no edge is produced for that reference. -/
theorem unresolved_column_edge_produced :
    ((get_source_tables stMultiSrc).map Table.name = ["a", "b"]) ∧
    (((extract_column_lineage stMultiSrc (get_target_table stMultiSrc)
        (get_source_tables stMultiSrc) none).map
          fun e => (e.source, e.target, e.edge_type)) =
      [("x", "tgt.x", EdgeType.column_to_column)]) ∧
    ((extract_lineage [stMultiSrc] none true).edges.any
      (fun e => decide (e.source = "x" ∧ e.edge_type = EdgeType.column_to_column)) = true) := by
  decide

/-- C7 witness: the amended theorem applied to `stMultiSrc`. -/
theorem multi_source_unqualified_column_edge_witness :
    ({ source := "x", target := "tgt.x",
       edge_type := EdgeType.column_to_column,
       expression := some "x", source_file := none } : LineageEdge) ∈
      extract_column_lineage stMultiSrc (some { name := "tgt" })
        [{ name := "a" }, { name := "b" }] none := by
  exact multi_source_unqualified_column_edge stMultiSrc { name := "tgt" }
    [{ name := "a" }, { name := "b" }] none
    (.selectE [.col "x" ""] [.fromE [.tbl "a" "" "" ""], .joinE [.tbl "b" "" "" ""]])
    rfl (by decide) (.col "x" "") (List.mem_singleton.2 rfl) "x" (.col "x" "")
    rfl (by decide) (.col "x" "") (List.mem_singleton.2 rfl) (by decide) rfl

/-!
## Claim C6: the resolver isolates parse failures
-/

lemma keyMem_append {α : Type} (k : String) (l1 l2 : List (String × α)) :
    keyMem k (l1 ++ l2) = (keyMem k l1 || keyMem k l2) := by
  simp [keyMem, List.any_append]

lemma keyMem_foldl_insert {α : Type} (l : List (String × α)) :
    ∀ (acc : List (String × α)) (k : String),
      keyMem k (l.foldl (fun acc kv => if keyMem kv.1 acc then acc else acc ++ [kv]) acc) =
        (keyMem k acc || keyMem k l) := by
  induction l with
  | nil => intro acc k; simp [keyMem]
  | cons kv l ih =>
    intro acc k
    by_cases hk : keyMem kv.1 acc = true
    · simp only [List.foldl_cons, hk, if_true, ih]
      by_cases hkv : kv.1 = k
      · have : keyMem k acc = true := hkv ▸ hk
        simp [this]
      · simp [keyMem, hkv]
    · simp only [List.foldl_cons, hk, Bool.false_eq_true, if_false, ih]
      rw [keyMem_append]
      by_cases hkv : kv.1 = k <;> simp [keyMem, hkv, Bool.or_assoc]

lemma edgeKeyMem_add_edge (g : LineageGraph) (e : LineageEdge)
    (k : String × String × EdgeType) :
    edgeKeyMem k (g.add_edge e).edges =
      (edgeKeyMem k g.edges || decide (e.key = k)) := by
  unfold LineageGraph.add_edge
  by_cases hb : (g.edges.any fun e2 => edgeKeyEq e2 e) = true
  · simp only [hb, if_true]
    by_cases hek : e.key = k
    · have : edgeKeyMem k g.edges = true := by
        simp only [List.any_eq_true, edgeKeyEq, decide_eq_true_eq] at hb
        obtain ⟨e2, he2, hkey⟩ := hb
        simp only [edgeKeyMem, List.any_eq_true, decide_eq_true_eq]
        exact ⟨e2, he2, hkey.trans hek⟩
      simp [this]
    · simp [hek]
  · simp only [hb, Bool.false_eq_true, if_false]
    simp [edgeKeyMem, List.any_append]

lemma edgeKeyMem_foldl_add_edge (l : List LineageEdge) :
    ∀ (g : LineageGraph) (k : String × String × EdgeType),
      edgeKeyMem k ((l.foldl (fun acc e => acc.add_edge e) g).edges) =
        (edgeKeyMem k g.edges || edgeKeyMem k l) := by
  induction l with
  | nil => intro g k; simp [edgeKeyMem]
  | cons e l ih =>
    intro g k
    rw [List.foldl_cons, ih, edgeKeyMem_add_edge]
    simp [edgeKeyMem, Bool.or_assoc]

lemma merge_keyMem_tables (g h : LineageGraph) (k : String) :
    keyMem k (g.merge h).tables = (keyMem k g.tables || keyMem k h.tables) := by
  unfold LineageGraph.merge
  obtain ⟨tl, htl⟩ := foldl_add_edge_shape h.edges
    { g with
      tables := h.tables.foldl (fun acc kv => if keyMem kv.1 acc then acc else acc ++ [kv]) g.tables,
      columns := h.columns.foldl (fun acc kv => if keyMem kv.1 acc then acc else acc ++ [kv]) g.columns }
  rw [htl]
  exact keyMem_foldl_insert h.tables g.tables k

lemma merge_keyMem_columns (g h : LineageGraph) (k : String) :
    keyMem k (g.merge h).columns = (keyMem k g.columns || keyMem k h.columns) := by
  unfold LineageGraph.merge
  obtain ⟨tl, htl⟩ := foldl_add_edge_shape h.edges
    { g with
      tables := h.tables.foldl (fun acc kv => if keyMem kv.1 acc then acc else acc ++ [kv]) g.tables,
      columns := h.columns.foldl (fun acc kv => if keyMem kv.1 acc then acc else acc ++ [kv]) g.columns }
  rw [htl]
  exact keyMem_foldl_insert h.columns g.columns k

lemma merge_edgeKeyMem (g h : LineageGraph) (k : String × String × EdgeType) :
    edgeKeyMem k (g.merge h).edges = (edgeKeyMem k g.edges || edgeKeyMem k h.edges) := by
  unfold LineageGraph.merge
  exact edgeKeyMem_foldl_add_edge h.edges _ k

lemma foldl_merge_keyMem_tables (gs : List LineageGraph) :
    ∀ (g0 : LineageGraph) (k : String),
      keyMem k ((gs.foldl (fun a b => a.merge b) g0).tables) =
        (keyMem k g0.tables || gs.any fun g => keyMem k g.tables) := by
  induction gs with
  | nil => intro g0 k; simp
  | cons g1 gs ih =>
    intro g0 k
    rw [List.foldl_cons, ih, merge_keyMem_tables]
    simp [Bool.or_assoc]

lemma foldl_merge_keyMem_columns (gs : List LineageGraph) :
    ∀ (g0 : LineageGraph) (k : String),
      keyMem k ((gs.foldl (fun a b => a.merge b) g0).columns) =
        (keyMem k g0.columns || gs.any fun g => keyMem k g.columns) := by
  induction gs with
  | nil => intro g0 k; simp
  | cons g1 gs ih =>
    intro g0 k
    rw [List.foldl_cons, ih, merge_keyMem_columns]
    simp [Bool.or_assoc]

lemma foldl_merge_edgeKeyMem (gs : List LineageGraph) :
    ∀ (g0 : LineageGraph) (k : String × String × EdgeType),
      edgeKeyMem k ((gs.foldl (fun a b => a.merge b) g0).edges) =
        (edgeKeyMem k g0.edges || gs.any fun g => edgeKeyMem k g.edges) := by
  induction gs with
  | nil => intro g0 k; simp
  | cons g1 gs ih =>
    intro g0 k
    rw [List.foldl_cons, ih, merge_edgeKeyMem]
    simp [Bool.or_assoc]

lemma resolve_diags_eq (parse : String → Except String (List Exp)) (ic : Bool)
    (items : List (String × String)) :
    ∀ acc : LineageGraph × List (String × String),
      (items.foldl
        (fun (acc : LineageGraph × List (String × String)) it =>
          match parse it.2 with
          | .ok stmts =>
              (acc.1.merge (extract_lineage stmts (some it.1) ic), acc.2)
          | .error e => (acc.1, acc.2 ++ [(it.1, e)]))
        acc).2 =
      acc.2 ++ (items.filterMap fun it =>
        match parse it.2 with
        | .error e => some (it.1, e)
        | .ok _ => none) := by
  induction items with
  | nil => intro acc; simp
  | cons it items ih =>
    intro acc
    rcases hp : parse it.2 with e | stmts
    · simp only [List.foldl_cons, hp, List.filterMap_cons]
      rw [ih]
      simp
    · simp only [List.foldl_cons, hp, List.filterMap_cons]
      rw [ih]

lemma resolve_graph_eq (parse : String → Except String (List Exp)) (ic : Bool)
    (items : List (String × String)) :
    ∀ acc : LineageGraph × List (String × String),
      (items.foldl
        (fun (acc : LineageGraph × List (String × String)) it =>
          match parse it.2 with
          | .ok stmts =>
              (acc.1.merge (extract_lineage stmts (some it.1) ic), acc.2)
          | .error e => (acc.1, acc.2 ++ [(it.1, e)]))
        acc).1 =
      ((items.filterMap fun it =>
        match parse it.2 with
        | .ok stmts => some (extract_lineage stmts (some it.1) ic)
        | .error _ => none).foldl (fun a b => a.merge b) acc.1) := by
  induction items with
  | nil => intro acc; simp
  | cons it items ih =>
    intro acc
    rcases hp : parse it.2 with e | stmts
    · simp only [List.foldl_cons, hp, List.filterMap_cons]
      rw [ih]
    · simp only [List.foldl_cons, hp, List.filterMap_cons]
      rw [ih]

/-- C6: a batch containing unparseable sources never aborts: the
resolver records one diagnostic naming each failing source and its
cause (in order), the returned graph is exactly the merge of the graphs
of the successfully parsed sources, and every table key, column key and
edge key extracted from any successfully parsed source is present in
the returned unified graph. -/
theorem resolver_isolates_parse_failures
    (parse : String → Except String (List Exp))
    (items : List (String × String)) (ic : Bool) :
    ((resolve_sql_strings parse items ic).2 =
      items.filterMap fun it =>
        match parse it.2 with
        | .error e => some (it.1, e)
        | .ok _ => none) ∧
    ((resolve_sql_strings parse items ic).1 =
      (items.filterMap fun it =>
        match parse it.2 with
        | .ok stmts => some (extract_lineage stmts (some it.1) ic)
        | .error _ => none).foldl (fun a b => a.merge b) {}) ∧
    (∀ it ∈ items, ∀ stmts, parse it.2 = .ok stmts →
      (∀ k, keyMem k (extract_lineage stmts (some it.1) ic).tables = true →
        keyMem k (resolve_sql_strings parse items ic).1.tables = true) ∧
      (∀ k, keyMem k (extract_lineage stmts (some it.1) ic).columns = true →
        keyMem k (resolve_sql_strings parse items ic).1.columns = true) ∧
      (∀ k, edgeKeyMem k (extract_lineage stmts (some it.1) ic).edges = true →
        edgeKeyMem k (resolve_sql_strings parse items ic).1.edges = true)) := by
  have hd := resolve_diags_eq parse ic items ({}, [])
  have hg := resolve_graph_eq parse ic items ({}, [])
  refine ⟨by simpa [resolve_sql_strings] using hd,
    by simpa [resolve_sql_strings] using hg, ?_⟩
  intro it hit stmts hok
  have hmemg : extract_lineage stmts (some it.1) ic ∈
      (items.filterMap fun it =>
        match parse it.2 with
        | .ok stmts => some (extract_lineage stmts (some it.1) ic)
        | .error _ => none) := by
    apply List.mem_filterMap.2
    exact ⟨it, hit, by rw [hok]⟩
  have hgr : (resolve_sql_strings parse items ic).1 =
      (items.filterMap fun it =>
        match parse it.2 with
        | .ok stmts => some (extract_lineage stmts (some it.1) ic)
        | .error _ => none).foldl (fun a b => a.merge b) {} := by
    simpa [resolve_sql_strings] using hg
  refine ⟨fun k hk => ?_, fun k hk => ?_, fun k hk => ?_⟩
  · rw [hgr, foldl_merge_keyMem_tables]
    refine Bool.or_eq_true_iff.2 (Or.inr ?_)
    exact List.any_eq_true.2 ⟨_, hmemg, hk⟩
  · rw [hgr, foldl_merge_keyMem_columns]
    refine Bool.or_eq_true_iff.2 (Or.inr ?_)
    exact List.any_eq_true.2 ⟨_, hmemg, hk⟩
  · rw [hgr, foldl_merge_edgeKeyMem]
    refine Bool.or_eq_true_iff.2 (Or.inr ?_)
    exact List.any_eq_true.2 ⟨_, hmemg, hk⟩

/-- C6 witness: a batch of one valid and one invalid source yields one
diagnostic naming the invalid source, and the valid source's tables and
edge survive into the unified graph. -/
theorem resolver_isolates_parse_failures_witness :
    ((resolve_sql_strings parseStub
        [("good.sql", "CREATE TABLE good AS SELECT id FROM src"),
         ("bad.sql", "THIS IS NOT VALID SQL")] false).2 =
      [("bad.sql", "ParseError: invalid")]) ∧
    (keyMem "good" (resolve_sql_strings parseStub
        [("good.sql", "CREATE TABLE good AS SELECT id FROM src"),
         ("bad.sql", "THIS IS NOT VALID SQL")] false).1.tables = true) ∧
    (edgeKeyMem ("src", "good", EdgeType.table_to_table)
      (resolve_sql_strings parseStub
        [("good.sql", "CREATE TABLE good AS SELECT id FROM src"),
         ("bad.sql", "THIS IS NOT VALID SQL")] false).1.edges = true) := by
  have h := resolver_isolates_parse_failures parseStub
    [("good.sql", "CREATE TABLE good AS SELECT id FROM src"),
     ("bad.sql", "THIS IS NOT VALID SQL")] false
  have hitem := h.2.2 ("good.sql", "CREATE TABLE good AS SELECT id FROM src")
    (by simp) [stGood] (by rfl)
  refine ⟨by rw [h.1]; decide, hitem.1 "good" (by decide),
    hitem.2.2 ("src", "good", EdgeType.table_to_table) (by decide)⟩

/-!
## Claims C1 and C3: the execution-order engine

The development follows the loop structure of `get_execution_order`:
first the adjacency/in-degree build is characterized, then the Kahn
loop is analyzed through an invariant.  `idxOf` is the position of an
element in the returned ordering.
-/

lemma idxOf_append_left {x : String} {l : List String} (l2 : List String)
    (h : x ∈ l) : idxOf (l ++ l2) x = idxOf l x := by
  induction l with
  | nil => cases h
  | cons a l ih =>
    by_cases ha : a = x
    · simp [idxOf, ha]
    · rcases List.mem_cons.1 h with h1 | h1
      · exact absurd h1.symm ha
      · simp [idxOf, ha, ih h1]

lemma idxOf_lt_length {x : String} {l : List String} (h : x ∈ l) :
    idxOf l x < l.length := by
  induction l with
  | nil => cases h
  | cons a l ih =>
    by_cases ha : a = x
    · simp [idxOf, ha]
    · rcases List.mem_cons.1 h with h1 | h1
      · exact absurd h1.symm ha
      · simp only [idxOf, ha, if_false, List.length_cons]
        exact Nat.succ_lt_succ (ih h1)

lemma idxOf_append_self {x : String} {l : List String} (h : x ∉ l) :
    idxOf (l ++ [x]) x = l.length := by
  induction l with
  | nil => simp [idxOf]
  | cons a l ih =>
    have ha : a ≠ x := fun hax => h (hax ▸ List.mem_cons_self a l)
    simp only [List.cons_append, idxOf, ha, if_false, List.length_cons]
    exact congrArg (· + 1) (ih fun hx => h (List.mem_cons_of_mem a hx))

lemma length_filter_split (l : List String) (hl : l.Nodup) (a : String)
    (ha : a ∈ l) (p q : String → Bool)
    (hpq : ∀ x, x ≠ a → p x = q x) (hqa : q a = false) :
    (l.filter p).length = (l.filter q).length + (if p a then 1 else 0) := by
  induction l with
  | nil => cases ha
  | cons x l ih =>
    rcases List.nodup_cons.1 hl with ⟨hx, hl'⟩
    by_cases hxa : x = a
    · subst hxa
      have hcong : l.filter p = l.filter q :=
        List.filter_congr fun y hy => hpq y (fun hya => hx (hya ▸ hy))
      by_cases hp : p x = true
      · simp [List.filter_cons, hp, hqa, hcong]
      · simp only [Bool.not_eq_true] at hp
        simp [List.filter_cons, hp, hqa, hcong]
    · have hx1 : p x = q x := hpq x hxa
      have ha' : a ∈ l := by
        rcases List.mem_cons.1 ha with h1 | h1
        · exact absurd h1.symm hxa
        · exact h1
      by_cases hp : p x = true
      · simp [List.filter_cons, hp, ← hx1, ih hl' ha', Nat.add_right_comm]
      · simp only [Bool.not_eq_true] at hp
        simp [List.filter_cons, hp, ← hx1, ih hl' ha']

lemma nodup_singleton_of_all_eq {l : List String} {a : String}
    (hl : l.Nodup) (hmem : a ∈ l) (hall : ∀ x ∈ l, x = a) : l = [a] := by
  match l, hmem with
  | [x], _ =>
      have := hall x (by simp)
      simp [this]
  | x :: y :: r, _ =>
      have hx := hall x (by simp)
      have hy := hall y (by simp)
      exact absurd (hx.trans hy.symm) (by
        rcases List.nodup_cons.1 hl with ⟨hnx, _⟩
        intro hxy
        exact hnx (hxy ▸ List.mem_cons_self y r))

lemma buildKahn_eq_buildFold (g : LineageGraph) :
    buildKahn g = buildFold (g.tables.map (·.1)) g.edges := rfl

lemma buildFold_adj_iff (ids : List String) (l : List LineageEdge) :
    ∀ u v, v ∈ (buildFold ids l).adjF u ↔
      ∃ e ∈ l, e.edge_type = EdgeType.table_to_table ∧
        strLower e.source = u ∧ strLower e.target = v ∧ u ∈ ids ∧ v ∈ ids := by
  induction l using List.reverseRecOn with
  | nil =>
    intro u v
    simp [buildFold, List.not_mem_nil]
  | append_singleton l e ih =>
    intro u v
    have hstep : buildFold ids (l ++ [e]) = buildKahnStep ids (buildFold ids l) e := by
      simp [buildFold, List.foldl_append]
    rw [hstep]
    by_cases ht : e.edge_type = EdgeType.table_to_table
    · by_cases hg : (ids.contains (strLower e.source) && ids.contains (strLower e.target)) = true
      · have hmem : strLower e.source ∈ ids ∧ strLower e.target ∈ ids := by
          simp only [Bool.and_eq_true, List.elem_eq_mem, decide_eq_true_eq] at hg
          exact hg
        simp only [buildKahnStep, ht, if_true, hg]
        by_cases hu : u = strLower e.source
        · subst hu
          constructor
          · intro hv
            simp only [if_pos rfl] at hv
            by_cases hc : ((buildFold ids l).adjF (strLower e.source)).contains (strLower e.target) = true
            · rw [if_pos hc] at hv
              obtain ⟨e', he', hconds⟩ := (ih _ v).1 hv
              exact ⟨e', List.mem_append_left _ he', hconds⟩
            · rw [if_neg hc] at hv
              rcases List.mem_append.1 hv with hv1 | hv1
              · obtain ⟨e', he', hconds⟩ := (ih _ v).1 hv1
                exact ⟨e', List.mem_append_left _ he', hconds⟩
              · have hv2 : v = strLower e.target := by simpa using hv1
                exact ⟨e, by simp, ht, rfl, hv2.symm, hmem.1, hv2 ▸ hmem.2⟩
          · rintro ⟨e', he', ht', hs', htg', hui, hvi⟩
            simp only [if_pos rfl]
            rcases List.mem_append.1 he' with h1 | h1
            · have hold : v ∈ (buildFold ids l).adjF (strLower e.source) :=
                (ih _ v).2 ⟨e', h1, ht', hs', htg', hui, hvi⟩
              by_cases hc : ((buildFold ids l).adjF (strLower e.source)).contains (strLower e.target) = true
              · rwa [if_pos hc]
              · rw [if_neg hc]
                exact List.mem_append_left _ hold
            · have he2 : e' = e := by simpa using h1
              subst he2
              have hv2 : v = strLower e'.target := htg'.symm
              subst hv2
              by_cases hc : ((buildFold ids l).adjF (strLower e'.source)).contains (strLower e'.target) = true
              · rw [if_pos hc]
                simp only [List.elem_eq_mem, decide_eq_true_eq] at hc
                exact hc
              · rw [if_neg hc]
                exact List.mem_append_right _ (by simp)
        · simp only [if_neg hu]
          rw [ih u v]
          constructor
          · rintro ⟨e', he', hconds⟩
            exact ⟨e', List.mem_append_left _ he', hconds⟩
          · rintro ⟨e', he', ht', hs', htg', hui, hvi⟩
            rcases List.mem_append.1 he' with h1 | h1
            · exact ⟨e', h1, ht', hs', htg', hui, hvi⟩
            · have he2 : e' = e := by simpa using h1
              subst he2
              exact absurd hs'.symm hu
      · simp only [buildKahnStep, ht, if_true, hg, Bool.false_eq_true, if_false]
        rw [ih u v]
        constructor
        · rintro ⟨e', he', hconds⟩
          exact ⟨e', List.mem_append_left _ he', hconds⟩
        · rintro ⟨e', he', ht', hs', htg', hui, hvi⟩
          rcases List.mem_append.1 he' with h1 | h1
          · exact ⟨e', h1, ht', hs', htg', hui, hvi⟩
          · have he2 : e' = e := by simpa using h1
            subst he2
            exact absurd (by simp [List.elem_eq_mem, hs' ▸ hui, htg' ▸ hvi]) hg
    · simp only [buildKahnStep, ht, if_false]
      rw [ih u v]
      constructor
      · rintro ⟨e', he', hconds⟩
        exact ⟨e', List.mem_append_left _ he', hconds⟩
      · rintro ⟨e', he', ht', hs', htg', hui, hvi⟩
        rcases List.mem_append.1 he' with h1 | h1
        · exact ⟨e', h1, ht', hs', htg', hui, hvi⟩
        · have he2 : e' = e := by simpa using h1
          subst he2
          exact absurd ht' ht

lemma buildFold_adj_nodup (ids : List String) (l : List LineageEdge) :
    ∀ u, ((buildFold ids l).adjF u).Nodup := by
  induction l using List.reverseRecOn with
  | nil => intro u; simp [buildFold]
  | append_singleton l e ih =>
    intro u
    have hstep : buildFold ids (l ++ [e]) = buildKahnStep ids (buildFold ids l) e := by
      simp [buildFold, List.foldl_append]
    rw [hstep]
    unfold buildKahnStep
    by_cases ht : e.edge_type = EdgeType.table_to_table
    · by_cases hg : (ids.contains (strLower e.source) && ids.contains (strLower e.target)) = true
      · simp only [ht, if_true, hg]
        by_cases hu : u = strLower e.source
        · subst hu
          rw [if_pos rfl]
          by_cases hc : ((buildFold ids l).adjF (strLower e.source)).contains (strLower e.target) = true
          · rw [if_pos hc]; exact ih _
          · rw [if_neg hc]
            rw [List.nodup_append]
            refine ⟨ih _, by simp, ?_⟩
            intro x hx1 hx2
            have hx3 : x = strLower e.target := by simpa using hx2
            subst hx3
            have hnotin : strLower e.target ∉ (buildFold ids l).adjF (strLower e.source) := by
              simpa using hc
            exact hnotin hx1
        · simp only [if_neg hu]; exact ih u
      · simp only [ht, if_true, hg, Bool.false_eq_true, if_false]; exact ih u
    · simp only [ht, if_false]; exact ih u

lemma buildFold_indeg (ids : List String) (hids : ids.Nodup) :
    ∀ l : List LineageEdge, (l.map LineageEdge.key).Nodup →
      ∀ v, (buildFold ids l).indegF v =
        ((ids.filter fun u => decide (v ∈ (buildFold ids l).adjF u)).length : Int) := by
  intro l
  induction l using List.reverseRecOn with
  | nil =>
    intro _ v
    simp [buildFold]
  | append_singleton l e ih =>
    intro hkeys v
    have hkl : (l.map LineageEdge.key).Nodup := by
      rw [List.map_append] at hkeys
      exact (List.nodup_append.1 hkeys).1
    have hfresh : LineageEdge.key e ∉ l.map LineageEdge.key := by
      rw [List.map_append] at hkeys
      have hdisj := (List.nodup_append.1 hkeys).2.2
      intro hmem
      exact hdisj hmem (by simp)
    have hstep : buildFold ids (l ++ [e]) = buildKahnStep ids (buildFold ids l) e := by
      simp [buildFold, List.foldl_append]
    rw [hstep]
    by_cases ht : e.edge_type = EdgeType.table_to_table
    · by_cases hg : (ids.contains (strLower e.source) && ids.contains (strLower e.target)) = true
      · have hmemids : strLower e.source ∈ ids ∧ strLower e.target ∈ ids := by
          simp only [Bool.and_eq_true, List.elem_eq_mem, decide_eq_true_eq] at hg
          exact hg
        have hnotin : strLower e.target ∉ (buildFold ids l).adjF (strLower e.source) := by
          intro hin
          obtain ⟨e', he', ht', hs', htg', _, _⟩ := (buildFold_adj_iff ids l _ _).1 hin
          apply hfresh
          refine List.mem_map.2 ⟨e', he', ?_⟩
          simp [LineageEdge.key, hs', htg', ht', ht]
        have hcb : ((buildFold ids l).adjF (strLower e.source)).contains (strLower e.target) = false := by
          simp [List.elem_eq_mem, hnotin]
        simp only [buildKahnStep, ht, if_true, hg, hcb, Bool.false_eq_true, if_false]
        by_cases hv : v = strLower e.target
        · subst hv
          simp only [if_pos rfl]
          have hsplit := length_filter_split ids hids (strLower e.source) hmemids.1
            (fun u => decide ((strLower e.target) ∈
              (if u = strLower e.source then
                if ((buildFold ids l).adjF (strLower e.source)).contains (strLower e.target) = true then
                  (buildFold ids l).adjF (strLower e.source)
                else (buildFold ids l).adjF (strLower e.source) ++ [strLower e.target]
               else (buildFold ids l).adjF u)))
            (fun u => decide ((strLower e.target) ∈ (buildFold ids l).adjF u))
            (fun x hx => by simp [if_neg hx])
            (by simp [hnotin])
          simp only [hcb, Bool.false_eq_true, if_false] at hsplit
          have h1 : (decide ((strLower e.target) ∈
              (if True then
                (buildFold ids l).adjF (strLower e.source) ++ [strLower e.target]
               else (buildFold ids l).adjF (strLower e.source)))) = true := by
            simp
          rw [h1, if_pos rfl] at hsplit
          rw [if_pos trivial, ih hkl (strLower e.target), hsplit]
          push_cast
          ring
        · simp only [if_neg hv]
          rw [ih hkl v]
          have hcong : (ids.filter fun u => decide (v ∈ (buildFold ids l).adjF u)) =
              (ids.filter fun u => decide (v ∈
                (if u = strLower e.source then
                  (buildFold ids l).adjF (strLower e.source) ++ [strLower e.target]
                 else (buildFold ids l).adjF u))) := by
            apply List.filter_congr
            intro u hu
            by_cases hus : u = strLower e.source
            · subst hus
              simp [List.mem_append, hv]
            · simp [if_neg hus]
          rw [hcong]
      · simp only [buildKahnStep, ht, if_true, hg, Bool.false_eq_true, if_false]
        exact ih hkl v
    · simp only [buildKahnStep, ht, if_false]
      exact ih hkl v

lemma kahnStep_fold : ∀ (ns : List String), ns.Nodup →
    ∀ (f : String → Int) (q : List String),
      ns.foldl
        (fun (acc : (String → Int) × List String) v =>
          let d := acc.1 v - 1
          (fun x => if x = v then d else acc.1 x,
           if d = 0 then acc.2 ++ [v] else acc.2))
        (f, q) =
      (fun x => if x ∈ ns then f x - 1 else f x,
       q ++ ns.filter fun v => decide (f v - 1 = 0)) := by
  intro ns
  induction ns with
  | nil => intro _ f q; simp
  | cons v ns ih =>
    intro hnd f q
    rcases List.nodup_cons.1 hnd with ⟨hv, hnd'⟩
    rw [List.foldl_cons, ih hnd']
    refine Prod.ext ?_ ?_
    · funext x
      by_cases hx : x = v
      · subst hx
        simp [hv, List.mem_cons]
      · by_cases hxs : x ∈ ns <;> simp [hx, hxs, List.mem_cons]
    · show (if f v - 1 = 0 then q ++ [v] else q) ++
          ns.filter (fun u => decide ((if u = v then f v - 1 else f u) - 1 = 0)) =
        q ++ (v :: ns).filter fun u => decide (f u - 1 = 0)
      have hcong : ns.filter (fun u => decide ((if u = v then f v - 1 else f u) - 1 = 0)) =
          ns.filter fun u => decide (f u - 1 = 0) := by
        apply List.filter_congr
        intro u hu
        have : u ≠ v := fun h => hv (h ▸ hu)
        simp [this]
      rw [hcong, List.filter_cons]
      by_cases hd : f v - 1 = 0
      · simp [hd]
      · simp [hd]

lemma kahnInv_step (ids : List String) (adjF : String → List String)
    (H1 : ids.Nodup) (H2 : ∀ u, (adjF u).Nodup)
    (H3 : ∀ u v, v ∈ adjF u → u ∈ ids ∧ v ∈ ids)
    (indegF : String → Int) (node : String) (rest order : List String)
    (inv : KahnInv ids adjF indegF (node :: rest) order) :
    KahnInv ids adjF (fun x => if x ∈ adjF node then indegF x - 1 else indegF x)
      (rest ++ (adjF node).filter fun v => decide (indegF v - 1 = 0))
      (order ++ [node]) := by
  have hnodeids : node ∈ ids := inv.qss node (by simp)
  have hnd := inv.nd
  have hnodeorder : node ∉ order := by
    have h := (List.nodup_append.1 hnd).2.2
    exact fun hmem => h hmem (by simp)
  have hnewly_mem : ∀ v ∈ (adjF node).filter (fun v => decide (indegF v - 1 = 0)),
      v ∈ adjF node ∧ indegF v = 1 := by
    intro v hv
    have h1 := List.mem_of_mem_filter hv
    have h2 := List.of_mem_filter hv
    simp only [decide_eq_true_eq] at h2
    exact ⟨h1, by omega⟩
  have hreach_fwd : ∀ v, v ∈ order ∨ v ∈ node :: rest →
      ∀ u ∈ ids, v ∈ adjF u → u ∈ order := by
    intro v hv
    have hvids : v ∈ ids := by
      rcases hv with h | h
      · exact inv.oss v h
      · exact inv.qss v h
    exact (inv.reach v hvids).1 hv
  have hnew_not_old : ∀ v ∈ (adjF node).filter (fun v => decide (indegF v - 1 = 0)),
      v ∉ order ∧ v ∉ node :: rest := by
    intro v hv
    obtain ⟨hvadj, _⟩ := hnewly_mem v hv
    constructor <;> intro hcon
    · exact hnodeorder (hreach_fwd v (Or.inl hcon) node hnodeids hvadj)
    · exact hnodeorder (hreach_fwd v (Or.inr hcon) node hnodeids hvadj)
  have hnd0 : (order ++ [node] ++ rest).Nodup := by
    have he : order ++ [node] ++ rest = order ++ (node :: rest) := by simp
    rw [he]; exact hnd
  refine ⟨?_, ?_, ?_, ?_, ?_, ?_⟩
  · -- nodup
    have he : order ++ [node] ++ (rest ++ (adjF node).filter fun v => decide (indegF v - 1 = 0)) =
        (order ++ [node] ++ rest) ++ (adjF node).filter fun v => decide (indegF v - 1 = 0) := by
      simp [List.append_assoc]
    rw [he, List.nodup_append]
    refine ⟨hnd0, (H2 node).filter _, ?_⟩
    intro a ha han
    obtain ⟨h1, h2⟩ := hnew_not_old a han
    rcases List.mem_append.1 ha with h3 | h3
    · rcases List.mem_append.1 h3 with h4 | h4
      · exact h1 h4
      · exact h2 (by simpa using Or.inl (by simpa using h4))
    · exact h2 (List.mem_cons_of_mem node h3)
  · -- order subset
    intro x hx
    rcases List.mem_append.1 hx with h | h
    · exact inv.oss x h
    · have : x = node := by simpa using h
      exact this ▸ hnodeids
  · -- queue subset
    intro x hx
    rcases List.mem_append.1 hx with h | h
    · exact inv.qss x (List.mem_cons_of_mem node h)
    · exact (H3 node x (List.mem_of_mem_filter h)).2
  · -- degrees
    intro v
    by_cases hvadj : v ∈ adjF node
    · have hsplit := length_filter_split ids H1 node hnodeids
        (fun u => decide (v ∈ adjF u ∧ u ∉ order))
        (fun u => decide (v ∈ adjF u ∧ u ∉ order ++ [node]))
        (fun x hx => by simp [List.mem_append, hx])
        (by simp)
      have hp : (decide (v ∈ adjF node ∧ node ∉ order)) = true := by
        simp [hvadj, hnodeorder]
      have hsplit2 :
          (List.filter (fun u => decide (v ∈ adjF u ∧ u ∉ order)) ids).length =
          (List.filter (fun u => decide (v ∈ adjF u ∧ u ∉ order ++ [node])) ids).length + 1 := by
        simpa [hp] using hsplit
      rw [if_pos hvadj, inv.deg v, hsplit2]
      push_cast
      ring
    · have hcong : (ids.filter fun u => decide (v ∈ adjF u ∧ u ∉ order)) =
          ids.filter fun u => decide (v ∈ adjF u ∧ u ∉ order ++ [node]) := by
        apply List.filter_congr
        intro u hu
        by_cases hun : u = node
        · subst hun
          simp [hvadj]
        · simp [List.mem_append, hun]
      rw [if_neg hvadj, inv.deg v, hcong]
  · -- reach
    intro v hvids
    constructor
    · intro hv u hui hadj
      have hleft : ∀ w, w ∈ order ∨ w ∈ node :: rest → u ∈ order → u ∈ order ++ [node] :=
        fun _ _ h => List.mem_append_left _ h
      rcases hv with hv | hv
      · rcases List.mem_append.1 hv with h | h
        · exact List.mem_append_left _ (hreach_fwd v (Or.inl h) u hui hadj)
        · have hvn : v = node := by simpa using h
          subst hvn
          exact List.mem_append_left _ (hreach_fwd v (Or.inr (by simp)) u hui hadj)
      · rcases List.mem_append.1 hv with h | h
        · exact List.mem_append_left _
            (hreach_fwd v (Or.inr (List.mem_cons_of_mem node h)) u hui hadj)
        · -- v is newly enqueued: its only missing in-neighbor was node
          obtain ⟨hvadj, hvdeg⟩ := hnewly_mem v h
          have hd := inv.deg v
          have hlen : (ids.filter fun u => decide (v ∈ adjF u ∧ u ∉ order)).length = 1 := by
            omega
          obtain ⟨w, hw⟩ := List.length_eq_one.1 hlen
          by_cases huo : u ∈ order
          · exact List.mem_append_left _ huo
          · have humem : u ∈ ids.filter fun u => decide (v ∈ adjF u ∧ u ∉ order) :=
              List.mem_filter.2 ⟨hui, by simp [hadj, huo]⟩
            have hnmem : node ∈ ids.filter fun u => decide (v ∈ adjF u ∧ u ∉ order) :=
              List.mem_filter.2 ⟨hnodeids, by simp [hvadj, hnodeorder]⟩
            rw [hw] at humem hnmem
            have hun : u = node := by
              have h1 : u = w := by simpa using humem
              have h2 : node = w := by simpa using hnmem
              rw [h1, h2]
            subst hun
            exact List.mem_append_right _ (by simp)
    · intro hall
      by_cases hvold : v ∈ order ∨ v ∈ node :: rest
      · rcases hvold with h | h
        · exact Or.inl (List.mem_append_left _ h)
        · rcases List.mem_cons.1 h with h1 | h1
          · exact Or.inl (List.mem_append_right _ (by simp [h1]))
          · exact Or.inr (List.mem_append_left _ h1)
      · push_neg at hvold
        by_cases hvadjnode : v ∈ adjF node
        · -- count the missing in-neighbors: exactly node
          have hfilter : (ids.filter fun u => decide (v ∈ adjF u ∧ u ∉ order)) = [node] := by
            apply nodup_singleton_of_all_eq (H1.filter _)
            · exact List.mem_filter.2 ⟨hnodeids, by simp [hvadjnode, hnodeorder]⟩
            · intro x hx
              have hx1 := List.mem_filter.1 hx
              have hx2 : v ∈ adjF x ∧ x ∉ order := by simpa using hx1.2
              have := hall x hx1.1 hx2.1
              rcases List.mem_append.1 this with h | h
              · exact absurd h hx2.2
              · simpa using h
          have hdeg1 : indegF v = 1 := by
            rw [inv.deg v, hfilter]
            simp
          refine Or.inr (List.mem_append_right _ ?_)
          exact List.mem_filter.2 ⟨hvadjnode, by simp [hdeg1]⟩
        · -- all in-neighbors are already in `order`: contradiction with v unseen
          exfalso
          have hv2 : v ∈ order ∨ v ∈ node :: rest := by
            apply (inv.reach v hvids).2
            intro u hui hadj
            have := hall u hui hadj
            rcases List.mem_append.1 this with h | h
            · exact h
            · have hun : u = node := by simpa using h
              exact absurd (hun ▸ hadj) hvadjnode
          rcases hv2 with h | h
          · exact hvold.1 h
          · exact hvold.2 h
  · -- soundness
    intro u v hadj hv
    rcases List.mem_append.1 hv with h | h
    · obtain ⟨huo, hidx⟩ := inv.sound u v hadj h
      refine ⟨List.mem_append_left _ huo, ?_⟩
      rw [idxOf_append_left [node] huo, idxOf_append_left [node] h]
      exact hidx
    · have hvn : v = node := by simpa using h
      subst hvn
      have huo : u ∈ order :=
        hreach_fwd v (Or.inr (by simp)) u (H3 u v hadj).1 hadj
      refine ⟨List.mem_append_left _ huo, ?_⟩
      rw [idxOf_append_left [v] huo, idxOf_append_self hnodeorder]
      exact idxOf_lt_length huo

lemma kahnLoop_spec (ids : List String) (adjF : String → List String)
    (H1 : ids.Nodup) (H2 : ∀ u, (adjF u).Nodup)
    (H3 : ∀ u v, v ∈ adjF u → u ∈ ids ∧ v ∈ ids) :
    ∀ (fuel : Nat) (indegF : String → Int) (queue order : List String),
      KahnInv ids adjF indegF queue order →
      ids.length < fuel + order.length →
      ∃ tail,
        kahnLoop adjF fuel indegF queue order = order ++ tail ∧
        (order ++ tail).Nodup ∧
        (∀ x ∈ order ++ tail, x ∈ ids) ∧
        (∀ u v, v ∈ adjF u → v ∈ order ++ tail →
          u ∈ order ++ tail ∧ idxOf (order ++ tail) u < idxOf (order ++ tail) v) ∧
        (∀ v ∈ ids, (∀ u ∈ ids, v ∈ adjF u → u ∈ order ++ tail) →
          v ∈ order ++ tail) := by
  intro fuel
  induction fuel with
  | zero =>
    intro indegF queue order inv hfuel
    exfalso
    have h1 : order.Nodup := (List.nodup_append.1 inv.nd).1
    have h2 : order ⊆ ids := fun x hx => inv.oss x hx
    have h3 := (h1.subperm h2).length_le
    omega
  | succ fuel ih =>
    intro indegF queue order inv hfuel
    match queue with
    | [] =>
      refine ⟨[], by simp [kahnLoop], ?_, ?_, ?_, ?_⟩
      · simpa using (List.nodup_append.1 inv.nd).1
      · intro x hx
        exact inv.oss x (by simpa using hx)
      · intro u v hadj hv
        obtain ⟨h1, h2⟩ := inv.sound u v hadj (by simpa using hv)
        constructor
        · simpa using h1
        · simpa using h2
      · intro v hv hall
        have := (inv.reach v hv).2 fun u hu ha => by simpa using hall u hu ha
        rcases this with h | h
        · simpa using h
        · cases h
    | node :: rest =>
      have hkey : kahnLoop adjF (fuel + 1) indegF (node :: rest) order =
          kahnLoop adjF fuel
            (fun x => if x ∈ adjF node then indegF x - 1 else indegF x)
            (rest ++ (adjF node).filter fun v => decide (indegF v - 1 = 0))
            (order ++ [node]) := by
        show kahnLoop adjF fuel (kahnStep adjF node indegF rest).1
          (kahnStep adjF node indegF rest).2 (order ++ [node]) = _
        rw [show kahnStep adjF node indegF rest =
          (fun x => if x ∈ adjF node then indegF x - 1 else indegF x,
           rest ++ (adjF node).filter fun v => decide (indegF v - 1 = 0)) from
          kahnStep_fold (adjF node) (H2 node) indegF rest]
      have hinv' := kahnInv_step ids adjF H1 H2 H3 indegF node rest order inv
      have hfuel' : ids.length < fuel + (order ++ [node]).length := by
        simp only [List.length_append, List.length_cons, List.length_nil]
        omega
      obtain ⟨tail, hout, hnd, hsub, hsound, hcomp⟩ := ih _ _ _ hinv' hfuel'
      have happ : (order ++ [node]) ++ tail = order ++ (node :: tail) := by
        simp
      refine ⟨node :: tail, ?_, ?_, ?_, ?_, ?_⟩
      · rw [hkey, hout, happ]
      · rw [← happ]; exact hnd
      · rw [← happ] at *; exact hsub
      · rw [← happ] at *; exact hsound
      · rw [← happ] at *; exact hcomp

/-- The Kahn loop invariant at initialization: empty order, queue of all
zero-in-degree ids. -/
lemma kahnInv_init (ids : List String) (adjF : String → List String)
    (indegF : String → Int) (H1 : ids.Nodup)
    (hdeg : ∀ v, indegF v = ((ids.filter fun u => decide (v ∈ adjF u)).length : Int)) :
    KahnInv ids adjF indegF (ids.filter fun v => indegF v == 0) [] := by
  have hdeg0 : ∀ v, indegF v = 0 ↔ (∀ u ∈ ids, v ∉ adjF u) := by
    intro v
    rw [hdeg v]
    constructor
    · intro h
      have hlen : (ids.filter fun u => decide (v ∈ adjF u)).length = 0 := by omega
      have hnil := List.length_eq_zero.1 hlen
      intro u hu hadj
      have : u ∈ ids.filter fun u => decide (v ∈ adjF u) :=
        List.mem_filter.2 ⟨hu, by simp [hadj]⟩
      rw [hnil] at this
      cases this
    · intro h
      have hnil : (ids.filter fun u => decide (v ∈ adjF u)) = [] :=
        List.filter_eq_nil_iff.2 fun u hu => by simp [h u hu]
      rw [hnil]
      rfl
  refine ⟨?_, ?_, ?_, ?_, ?_, ?_⟩
  · simpa using H1.filter _
  · intro x hx; cases hx
  · intro x hx; exact List.mem_of_mem_filter hx
  · intro v
    rw [hdeg v]
    congr 1
    apply congrArg List.length
    apply List.filter_congr
    intro u hu
    simp
  · intro v hv
    constructor
    · intro h u hu hadj
      rcases h with h | h
      · cases h
      · have h2 := List.of_mem_filter h
        simp only [beq_iff_eq] at h2
        exact absurd hadj ((hdeg0 v).1 h2 u hu)
    · intro h
      refine Or.inr (List.mem_filter.2 ⟨hv, ?_⟩)
      have : indegF v = 0 := (hdeg0 v).2 fun u hu hadj => by cases h u hu hadj
      simp [this]
  · intro u v _ hv
    cases hv

/-- `get_execution_order`, with its local bindings expanded. -/
lemma get_execution_order_eq (g : LineageGraph) :
    get_execution_order g =
      (kahnLoop (buildKahn g).adjF ((g.tables.map (·.1)).length + 1) (buildKahn g).indegF
        ((g.tables.map (·.1)).filter fun v => (buildKahn g).indegF v == 0) []) ++
      (g.tables.map (·.1)).filter
        (fun t => !((kahnLoop (buildKahn g).adjF ((g.tables.map (·.1)).length + 1)
          (buildKahn g).indegF
          ((g.tables.map (·.1)).filter fun v => (buildKahn g).indegF v == 0) []).contains t)) :=
  rfl

lemma perm_append_filter_not_mem (ids out : List String) (hids : ids.Nodup)
    (hout : out.Nodup) (hsub : ∀ x ∈ out, x ∈ ids) :
    (out ++ ids.filter fun t => !out.contains t).Perm ids := by
  rw [List.perm_iff_count]
  intro a
  rw [List.count_append]
  by_cases ha : a ∈ out
  · have h1 : out.count a = 1 := List.count_eq_one_of_mem hout ha
    have h2 : (ids.filter fun t => !out.contains t).count a = 0 := by
      apply List.count_eq_zero.2
      intro hmem
      have hp := List.of_mem_filter hmem
      simp [List.elem_eq_mem, ha] at hp
    have h3 : ids.count a = 1 := List.count_eq_one_of_mem hids (hsub a ha)
    omega
  · have h1 : out.count a = 0 := List.count_eq_zero.2 ha
    by_cases hai : a ∈ ids
    · have h2 : (ids.filter fun t => !out.contains t).count a = 1 := by
        apply List.count_eq_one_of_mem (hids.filter _)
        exact List.mem_filter.2 ⟨hai, by simp [List.elem_eq_mem, ha]⟩
      have h3 : ids.count a = 1 := List.count_eq_one_of_mem hids hai
      omega
    · have h2 : (ids.filter fun t => !out.contains t).count a = 0 :=
        List.count_eq_zero.2 fun hmem => hai (List.mem_of_mem_filter hmem)
      have h3 : ids.count a = 0 := List.count_eq_zero.2 hai
      omega

/-- C1 counterexample: in `gCycle` the edge b → c has both endpoints
registered and is on no cycle of the table-to-table subgraph (no
table-to-table edge leaves c at all), yet b does not precede c in the
returned ordering: the whole component is starved by the unrelated
cycle a ⇄ b and is emitted in registration order c, b, a. -/
theorem cycle_breaks_edge_order :
    (gCycle.edges.contains
      { source := "b", target := "c", edge_type := EdgeType.table_to_table,
        expression := none, source_file := none } = true) ∧
    ("b" ∈ gCycle.tables.map (·.1)) ∧
    ("c" ∈ gCycle.tables.map (·.1)) ∧
    ((gCycle.edges.all fun e2 =>
      !(decide (e2.edge_type = EdgeType.table_to_table) &&
        decide (strLower e2.source = "c"))) = true) ∧
    (get_execution_order gCycle = ["c", "b", "a"]) ∧
    ¬ (idxOf (get_execution_order gCycle) "b" < idxOf (get_execution_order gCycle) "c") := by
  decide

/-- C1 amended: whenever the table-to-table subgraph over the registered
ids allows a topological ranking `r` (equivalently, is acyclic), every
registered `table_to_table` edge is respected by the returned ordering:
the (lowercased) source strictly precedes the (lowercased) target.  The
nodup hypotheses are the dictionary-key invariants that hold for every
graph the implementation builds. -/
theorem execution_order_respects_edges (g : LineageGraph) (r : String → Nat)
    (hids : (g.tables.map (·.1)).Nodup)
    (hkeys : (g.edges.map LineageEdge.key).Nodup)
    (hrank : ∀ e ∈ g.edges, e.edge_type = EdgeType.table_to_table →
      strLower e.source ∈ g.tables.map (·.1) →
      strLower e.target ∈ g.tables.map (·.1) →
      r (strLower e.source) < r (strLower e.target))
    (e : LineageEdge) (he : e ∈ g.edges) (ht : e.edge_type = EdgeType.table_to_table)
    (hu : strLower e.source ∈ g.tables.map (·.1))
    (hv : strLower e.target ∈ g.tables.map (·.1)) :
    idxOf (get_execution_order g) (strLower e.source) <
      idxOf (get_execution_order g) (strLower e.target) := by
  have hadj_iff := buildFold_adj_iff (g.tables.map (·.1)) g.edges
  have H2 := buildFold_adj_nodup (g.tables.map (·.1)) g.edges
  have H3 : ∀ u v, v ∈ (buildFold (g.tables.map (·.1)) g.edges).adjF u →
      u ∈ g.tables.map (·.1) ∧ v ∈ g.tables.map (·.1) := by
    intro u v hadj
    obtain ⟨e', _, _, _, _, hui, hvi⟩ := (hadj_iff u v).1 hadj
    exact ⟨hui, hvi⟩
  have hdeg := buildFold_indeg (g.tables.map (·.1)) hids g.edges hkeys
  have inv0 := kahnInv_init (g.tables.map (·.1))
    (buildFold (g.tables.map (·.1)) g.edges).adjF
    (buildFold (g.tables.map (·.1)) g.edges).indegF hids hdeg
  have hfuel : (g.tables.map (·.1)).length <
      ((g.tables.map (·.1)).length + 1) + ([] : List String).length := by
    simp
  obtain ⟨tail, hout, hnd, hsub, hsound, hcomp⟩ :=
    kahnLoop_spec (g.tables.map (·.1)) _ hids H2 H3
      ((g.tables.map (·.1)).length + 1)
      (buildFold (g.tables.map (·.1)) g.edges).indegF
      ((g.tables.map (·.1)).filter fun v =>
        (buildFold (g.tables.map (·.1)) g.edges).indegF v == 0)
      [] inv0 hfuel
  have hadj_rank : ∀ u v, v ∈ (buildFold (g.tables.map (·.1)) g.edges).adjF u →
      r u < r v := by
    intro u v hadj
    obtain ⟨e', he', ht', hs', htg', hui, hvi⟩ := (hadj_iff u v).1 hadj
    subst hs'
    subst htg'
    exact hrank e' he' ht' hui hvi
  have hall : ∀ v ∈ g.tables.map (·.1), v ∈ ([] : List String) ++ tail := by
    have H : ∀ n, ∀ v, v ∈ g.tables.map (·.1) → r v < n →
        v ∈ ([] : List String) ++ tail := by
      intro n
      induction n with
      | zero => intro v _ hlt; omega
      | succ n ihn =>
        intro v hvi hlt
        apply hcomp v hvi
        intro u hui hadj
        exact ihn u hui (by have := hadj_rank u v hadj; omega)
    exact fun v hvi => H (r v + 1) v hvi (Nat.lt_succ_self _)
  rw [get_execution_order_eq g, buildKahn_eq_buildFold g, hout]
  have hfilter : (g.tables.map (·.1)).filter
      (fun t => !((([] : List String) ++ tail).contains t)) = [] :=
    List.filter_eq_nil_iff.2 fun t hti => by
      have hmem := hall t hti
      simp only [List.nil_append] at hmem
      simp [List.elem_eq_mem, hmem]
  rw [hfilter, List.append_nil]
  have hadj_e : strLower e.target ∈
      (buildFold (g.tables.map (·.1)) g.edges).adjF (strLower e.source) :=
    (hadj_iff _ _).2 ⟨e, he, ht, rfl, rfl, hu, hv⟩
  exact (hsound _ _ hadj_e (hall _ hv)).2

/-- C1 witness: on the acyclic graph `gAcyclic`, a precedes b. -/
theorem execution_order_respects_edges_witness :
    idxOf (get_execution_order gAcyclic) (strLower "a") <
      idxOf (get_execution_order gAcyclic) (strLower "b") := by
  have hedges : gAcyclic.edges = [edgeAB] := by decide
  exact execution_order_respects_edges gAcyclic rankW (by decide) (by decide)
    (by
      intro e2 he2 ht2 hu2 hv2
      rw [hedges] at he2
      have he3 : e2 = edgeAB := by simpa using he2
      subst he3
      decide)
    edgeAB (by rw [hedges]; simp) rfl (by decide) (by decide)

/-- C3: `get_execution_order` always returns a permutation of the table
node ids — no node missing, none duplicated — also on cyclic or
disconnected graphs.  The nodup hypotheses are the dictionary-key
invariants that hold for every graph the implementation builds. -/
theorem execution_order_total (g : LineageGraph)
    (hids : (g.tables.map (·.1)).Nodup)
    (hkeys : (g.edges.map LineageEdge.key).Nodup) :
    (get_execution_order g).Perm (g.tables.map (·.1)) := by
  have hadj_iff := buildFold_adj_iff (g.tables.map (·.1)) g.edges
  have H2 := buildFold_adj_nodup (g.tables.map (·.1)) g.edges
  have H3 : ∀ u v, v ∈ (buildFold (g.tables.map (·.1)) g.edges).adjF u →
      u ∈ g.tables.map (·.1) ∧ v ∈ g.tables.map (·.1) := by
    intro u v hadj
    obtain ⟨e', _, _, _, _, hui, hvi⟩ := (hadj_iff u v).1 hadj
    exact ⟨hui, hvi⟩
  have hdeg := buildFold_indeg (g.tables.map (·.1)) hids g.edges hkeys
  have inv0 := kahnInv_init (g.tables.map (·.1))
    (buildFold (g.tables.map (·.1)) g.edges).adjF
    (buildFold (g.tables.map (·.1)) g.edges).indegF hids hdeg
  have hfuel : (g.tables.map (·.1)).length <
      ((g.tables.map (·.1)).length + 1) + ([] : List String).length := by
    simp
  obtain ⟨tail, hout, hnd, hsub, hsound, hcomp⟩ :=
    kahnLoop_spec (g.tables.map (·.1)) _ hids H2 H3
      ((g.tables.map (·.1)).length + 1)
      (buildFold (g.tables.map (·.1)) g.edges).indegF
      ((g.tables.map (·.1)).filter fun v =>
        (buildFold (g.tables.map (·.1)) g.edges).indegF v == 0)
      [] inv0 hfuel
  rw [get_execution_order_eq g, buildKahn_eq_buildFold g, hout]
  exact perm_append_filter_not_mem _ _ hids hnd hsub

/-- C3 witness: the ordering of the cyclic-plus-isolated graph `gCycW`
is a permutation of its table ids. -/
theorem execution_order_total_witness :
    (get_execution_order gCycW).Perm (gCycW.tables.map (·.1)) :=
  execution_order_total gCycW (by decide) (by decide)

end SqlLineage
